import Mathlib

/-!
# Work-queue producer / consumer: message envelope and trace-context carrier

A shallow embedding of `go/message/message.go`, `go/producer_service/main.go` and
`go/consumer_service/main.go`.

The three source files call into libraries (`encoding/json`, `unicode/utf8`,
`unicode/utf16`, `strconv`, `fmt`, `encoding/hex`, the OpenTelemetry propagators and the
AMQP header table).  The parts of those libraries that the source reaches are embedded
below under the library's own names, function by function, so that the repository's
functions can be written as they are in the source.

Conventions.
* A Go `string` / `[]byte` is a list of byte values (`GoString`).  The embedded functions
  only ever produce values below 256.
* Go `int` is the 64-bit signed integer of the deployment targets; it is an `Int`
  together with the explicit range `minInt64 ≤ i ≤ maxInt64` where a value comes from
  outside (the decoded `wait_time`), and `wrapInt64` where the source multiplies it.  The
  producer's counter, which only ever counts successful publishes up from 1 with a sleep
  of one second after each, is an unbounded `Int`.
* Bit masks and shifts on bytes and runes are written arithmetically
  (`x & 0x3F` is `x % 64`, `x << 6` is `x * 64`, `x >> 4` is `x / 16`, and an `|` of
  disjoint bit fields is `+`).
* Loops that advance through a string by a computed amount carry a fuel argument that is
  initialised with a bound on the number of iterations (the length of the input); the
  section on fuel shows that the results do not depend on it.
* A Go `map` is an association list with pairwise different keys; a `range` loop is a
  fold over its entries in a visiting order that the statements leave arbitrary.
* Calls that only write to the log (`log.Printf`, `fmt.Println`) are left out; the
  calls on the span, the broker and the clock are recorded as events.
-/

namespace Go

/-- A Go string (equally a byte slice): the sequence of its bytes. -/
abbrev GoString := List Nat

/-- Largest value of Go's 64-bit `int`. -/
def maxInt64 : Int := 9223372036854775807

/-- Smallest value of Go's 64-bit `int`. -/
def minInt64 : Int := -9223372036854775808

/-- Two's-complement wrap-around of a mathematical integer into the 64-bit `int` range. -/
def wrapInt64 (i : Int) : Int :=
  (i + 9223372036854775808) % 18446744073709551616 - 9223372036854775808

/-- The range of Go's 64-bit `int`. -/
def isInt64 (i : Int) : Prop := minInt64 ≤ i ∧ i ≤ maxInt64

instance (i : Int) : Decidable (isInt64 i) := by
  unfold isInt64; infer_instance

end Go

open Go

/-! ## unicode/utf8 and unicode/utf16 -/

namespace utf8

/-- The rune `utf8.RuneError`, U+FFFD. -/
def RuneError : Nat := 0xFFFD

/-- The table `first` together with `acceptRanges`: for a leading byte of a multi-byte
sequence, the sequence length and the accepted range of the second byte; `none` for the
bytes marked `xx` (invalid as a leading byte) and for ASCII. -/
def first (p0 : Nat) : Option (Nat × Nat × Nat) :=
  if p0 < 0xC2 then none
  else if p0 < 0xE0 then some (2, 0x80, 0xBF)
  else if p0 = 0xE0 then some (3, 0xA0, 0xBF)
  else if p0 < 0xED then some (3, 0x80, 0xBF)
  else if p0 = 0xED then some (3, 0x80, 0x9F)
  else if p0 < 0xF0 then some (3, 0x80, 0xBF)
  else if p0 = 0xF0 then some (4, 0x90, 0xBF)
  else if p0 < 0xF4 then some (4, 0x80, 0xBF)
  else if p0 = 0xF4 then some (4, 0x80, 0x8F)
  else none

/-- Continuation byte test: `locb ≤ b ≤ hicb`. -/
def isCont (b : Nat) : Bool := decide (0x80 ≤ b) && decide (b ≤ 0xBF)

/-- The function `utf8.DecodeRune` / `utf8.DecodeRuneInString`: the first rune of `s` and
its width in bytes; `(RuneError, 0)` on empty input and `(RuneError, 1)` on an invalid
encoding. -/
def DecodeRune (s : GoString) : Nat × Nat :=
  match s with
  | [] => (RuneError, 0)
  | s0 :: t =>
    if s0 < 0x80 then (s0, 1)
    else
      match first s0 with
      | none => (RuneError, 1)
      | some (sz, lo, hi) =>
        match t with
        | [] => (RuneError, 1)
        | s1 :: t1 =>
          if s1 < lo ∨ hi < s1 then (RuneError, 1)
          else if sz ≤ 2 then ((s0 % 32) * 64 + s1 % 64, 2)
          else
            match t1 with
            | [] => (RuneError, 1)
            | s2 :: t2 =>
              if isCont s2 = false then (RuneError, 1)
              else if sz ≤ 3 then ((s0 % 16) * 4096 + (s1 % 64) * 64 + s2 % 64, 3)
              else
                match t2 with
                | [] => (RuneError, 1)
                | s3 :: _ =>
                  if isCont s3 = false then (RuneError, 1)
                  else ((s0 % 8) * 262144 + (s1 % 64) * 4096 + (s2 % 64) * 64 + s3 % 64, 4)

/-- The function `utf8.EncodeRune` / `utf8.AppendRune`: the UTF-8 encoding of a rune;
surrogates and values above U+10FFFF are encoded as `RuneError`. -/
def EncodeRune (r : Nat) : GoString :=
  if r ≤ 0x7F then [r]
  else if r ≤ 0x7FF then [0xC0 + r / 64, 0x80 + r % 64]
  else if r > 0x10FFFF ∨ (0xD800 ≤ r ∧ r ≤ 0xDFFF) then [0xEF, 0xBF, 0xBD]
  else if r ≤ 0xFFFF then [0xE0 + r / 4096, 0x80 + (r / 64) % 64, 0x80 + r % 64]
  else [0xF0 + r / 262144, 0x80 + (r / 4096) % 64, 0x80 + (r / 64) % 64, 0x80 + r % 64]

/-- The loop of `utf8.ValidString`, with `fuel` bounding the number of runes. -/
def validLoop : Nat → GoString → Bool
  | 0, s => s.isEmpty
  | fuel + 1, s =>
    match s with
    | [] => true
    | s0 :: t =>
      if s0 < 0x80 then validLoop fuel t
      else
        let d := DecodeRune s
        if d.1 = RuneError ∧ d.2 = 1 then false
        else validLoop fuel (s.drop d.2)

/-- The function `utf8.ValidString`: `s` consists entirely of valid UTF-8 encoded runes. -/
def ValidString (s : GoString) : Bool := validLoop s.length s

end utf8

namespace utf16

/-- The function `utf16.IsSurrogate`. -/
def IsSurrogate (r : Nat) : Bool := decide (0xD800 ≤ r) && decide (r < 0xE000)

/-- The function `utf16.DecodeRune`: the code point of a surrogate pair, U+FFFD when the
pair is not valid. -/
def DecodeRune (r1 r2 : Nat) : Nat :=
  if 0xD800 ≤ r1 ∧ r1 < 0xDC00 ∧ 0xDC00 ≤ r2 ∧ r2 < 0xE000 then
    (r1 - 0xD800) * 1024 + (r2 - 0xDC00) + 0x10000
  else 0xFFFD

end utf16

/-! ## strconv -/

namespace strconv

/-- Decimal digits of a natural number, most significant first, as ASCII bytes
(the loop of `formatBits` for base 10); `fuel` bounds the number of digits. -/
def formatBits : Nat → Nat → GoString
  | 0, _ => []
  | fuel + 1, u =>
    if u < 10 then [0x30 + u] else formatBits fuel (u / 10) ++ [0x30 + u % 10]

/-- The function `strconv.FormatInt(i, 10)` (also what `fmt`'s verb `%d` prints for an
`int`): an optional minus sign and the decimal digits of the magnitude. -/
def FormatInt (i : Int) : GoString :=
  if i < 0 then 0x2D :: formatBits (i.natAbs + 1) i.natAbs
  else formatBits (i.natAbs + 1) i.natAbs

/-- The digit loop of `strconv.ParseUint(s, 10, 64)`, accumulating into `acc`; `none` on a
byte that is not a decimal digit. -/
def parseDigits : GoString → Nat → Option Nat
  | [], acc => some acc
  | c :: t, acc =>
    if 0x30 ≤ c ∧ c ≤ 0x39 then parseDigits t (acc * 10 + (c - 0x30)) else none

/-- The function `strconv.ParseUint(s, 10, 64)`: `none` for the syntax error (empty input,
a non-digit) and for the range error (value above `2^64 - 1`). -/
def ParseUint (s : GoString) : Option Nat :=
  match s with
  | [] => none
  | _ :: _ =>
    match parseDigits s 0 with
    | none => none
    | some n => if n < 18446744073709551616 then some n else none

/-- The function `strconv.ParseInt(s, 10, 64)`: an optional sign followed by decimal
digits, within the 64-bit signed range; `none` when it returns an error. -/
def ParseInt (s : GoString) : Option Int :=
  match s with
  | [] => none
  | c :: t =>
    let neg := decide (c = 0x2D)
    let digits := if c = 0x2B ∨ c = 0x2D then t else s
    match ParseUint digits with
    | none => none
    | some un =>
      if neg = false ∧ un ≥ 9223372036854775808 then none
      else if neg = true ∧ un > 9223372036854775808 then none
      else some (if neg then -(un : Int) else (un : Int))

end strconv

/-! ## encoding/json -/

namespace json

/-- A JSON value as the scanner delimits it: numbers keep their literal text (the decoder
hands the literal to `strconv`), strings are held unquoted. -/
inductive JSON where
  | null : JSON
  | bool (b : Bool) : JSON
  | number (lit : GoString) : JSON
  | string (s : GoString) : JSON
  | array (elems : List JSON) : JSON
  | object (members : List (GoString × JSON)) : JSON

/-- The errors `json.Unmarshal` can return for a struct of strings and ints. -/
inductive Error where
  | invalidJSON : Error
  | unmarshalType : Error
  deriving DecidableEq, Repr

/-- The table `hex = "0123456789abcdef"`. -/
def hex (n : Nat) : Nat := if n < 10 then 0x30 + n else 0x57 + n

/-- The table `htmlSafeSet`: the ASCII bytes written without escaping when HTML escaping
is on (all of 0x20..0x7F except the double quote, ampersand, angle brackets and
backslash). -/
def htmlSafeSet (b : Nat) : Bool :=
  decide (0x20 ≤ b) && decide (b < 0x80) && decide (b ≠ 0x22) && decide (b ≠ 0x26)
    && decide (b ≠ 0x3C) && decide (b ≠ 0x3E) && decide (b ≠ 0x5C)

/-- The escape written by `appendString` for an ASCII byte outside `htmlSafeSet`. -/
def escapeByte (b : Nat) : GoString :=
  if b = 0x5C ∨ b = 0x22 then [0x5C, b]
  else if b = 0x08 then [0x5C, 0x62]
  else if b = 0x0C then [0x5C, 0x66]
  else if b = 0x0A then [0x5C, 0x6E]
  else if b = 0x0D then [0x5C, 0x72]
  else if b = 0x09 then [0x5C, 0x74]
  else [0x5C, 0x75, 0x30, 0x30, hex (b / 16), hex (b % 16)]

/-- The loop of `appendString(dst, src, escapeHTML = true)`: the text written between the
quotes for the remaining source `s`. -/
def appendStringLoop : Nat → GoString → GoString
  | 0, _ => []
  | fuel + 1, s =>
    match s with
    | [] => []
    | b :: t =>
      if b < 0x80 then
        if htmlSafeSet b then b :: appendStringLoop fuel t
        else escapeByte b ++ appendStringLoop fuel t
      else
        let d := utf8.DecodeRune s
        if d.1 = utf8.RuneError ∧ d.2 = 1 then
          [0x5C, 0x75, 0x66, 0x66, 0x66, 0x64] ++ appendStringLoop fuel (s.drop d.2)
        else if d.1 = 0x2028 ∨ d.1 = 0x2029 then
          [0x5C, 0x75, 0x32, 0x30, 0x32, hex (d.1 % 16)] ++ appendStringLoop fuel (s.drop d.2)
        else s.take d.2 ++ appendStringLoop fuel (s.drop d.2)

/-- The function `appendString` with HTML escaping, as `json.Marshal` uses it: a quoted
JSON string literal for `s`. -/
def appendString (s : GoString) : GoString :=
  0x22 :: (appendStringLoop s.length s ++ [0x22])

/-- The scanner's `isSpace`. -/
def isSpace (c : Nat) : Bool :=
  decide (c = 0x20) || decide (c = 0x09) || decide (c = 0x0D) || decide (c = 0x0A)

/-- Skips JSON white space. -/
def skipSpace : GoString → GoString
  | [] => []
  | c :: t => if isSpace c then skipSpace t else c :: t

/-- Value of a hexadecimal digit, as in `getu4`. -/
def hexVal (c : Nat) : Option Nat :=
  if 0x30 ≤ c ∧ c ≤ 0x39 then some (c - 0x30)
  else if 0x61 ≤ c ∧ c ≤ 0x66 then some (c - 0x61 + 10)
  else if 0x41 ≤ c ∧ c ≤ 0x46 then some (c - 0x41 + 10)
  else none

/-- The function `getu4`: the value of a leading `\uXXXX` escape, `none` where Go returns
`-1`. -/
def getu4 (s : GoString) : Option Nat :=
  match s with
  | 0x5C :: 0x75 :: a :: b :: c :: d :: _ =>
    match hexVal a, hexVal b, hexVal c, hexVal d with
    | some x, some y, some z, some w => some (x * 4096 + y * 256 + z * 16 + w)
    | _, _, _, _ => none
  | _ => none

/-- The one-character escapes the scanner accepts after a backslash (`stateInStringEsc`)
and the byte `unquoteBytes` writes for each. -/
def simpleEscape (e : Nat) : Option Nat :=
  if e = 0x22 ∨ e = 0x5C ∨ e = 0x2F then some e
  else if e = 0x62 then some 0x08
  else if e = 0x66 then some 0x0C
  else if e = 0x6E then some 0x0A
  else if e = 0x72 then some 0x0D
  else if e = 0x74 then some 0x09
  else none

/-- Scanning of a string literal after its opening quote (`stateInString` and the escape
states) fused with `unquoteBytes`: the unquoted string and the input that follows the
closing quote; `none` on a syntax error. -/
def unquoteLoop : Nat → GoString → Option (GoString × GoString)
  | 0, _ => none
  | fuel + 1, s =>
    match s with
    | [] => none
    | c :: t =>
      if c = 0x22 then some ([], t)
      else if c = 0x5C then
        match t with
        | [] => none
        | e :: t1 =>
          if e = 0x75 then
            match getu4 s with
            | none => none
            | some rr =>
              if utf16.IsSurrogate rr then
                match getu4 (s.drop 6) with
                | some rr1 =>
                  if utf16.DecodeRune rr rr1 ≠ 0xFFFD then
                    (unquoteLoop fuel (s.drop 12)).map
                      (fun r => (utf8.EncodeRune (utf16.DecodeRune rr rr1) ++ r.1, r.2))
                  else
                    (unquoteLoop fuel (s.drop 6)).map
                      (fun r => (utf8.EncodeRune 0xFFFD ++ r.1, r.2))
                | none =>
                  (unquoteLoop fuel (s.drop 6)).map
                    (fun r => (utf8.EncodeRune 0xFFFD ++ r.1, r.2))
              else
                (unquoteLoop fuel (s.drop 6)).map (fun r => (utf8.EncodeRune rr ++ r.1, r.2))
          else
            match simpleEscape e with
            | none => none
            | some b => (unquoteLoop fuel t1).map (fun r => (b :: r.1, r.2))
      else if c < 0x20 then none
      else if c < 0x80 then (unquoteLoop fuel t).map (fun r => (c :: r.1, r.2))
      else
        let d := utf8.DecodeRune s
        (unquoteLoop fuel (s.drop d.2)).map (fun r => (utf8.EncodeRune d.1 ++ r.1, r.2))

/-- A string literal whose opening quote has been consumed. -/
def scanString (s : GoString) : Option (GoString × GoString) := unquoteLoop s.length s

/-- Decimal digit test. -/
def isDigit (c : Nat) : Bool := decide (0x30 ≤ c) && decide (c ≤ 0x39)

/-- The longest prefix of decimal digits and what follows it. -/
def spanDigits : GoString → GoString × GoString
  | [] => ([], [])
  | c :: t =>
    if isDigit c then ((c :: (spanDigits t).1), (spanDigits t).2) else ([], c :: t)

/-- The exponent part of a number (`stateE`, `stateESign`, `stateE0`), entered after the
integer or fraction part `lit`. -/
def scanExp (lit s : GoString) : Option (GoString × GoString) :=
  match s with
  | e :: t =>
    if e = 0x65 ∨ e = 0x45 then
      match t with
      | sg :: t1 =>
        if sg = 0x2B ∨ sg = 0x2D then
          match spanDigits t1 with
          | ([], _) => none
          | (ds, r) => some (lit ++ e :: sg :: ds, r)
        else
          match spanDigits t with
          | ([], _) => none
          | (ds, r) => some (lit ++ e :: ds, r)
      | [] => none
    else some (lit, s)
  | [] => some (lit, s)

/-- The fraction part of a number (`stateDot`, `stateDot0`), entered after the integer
part `lit`, followed by the exponent part. -/
def scanFrac (lit s : GoString) : Option (GoString × GoString) :=
  match s with
  | 0x2E :: t =>
    match spanDigits t with
    | ([], _) => none
    | (ds, r) => scanExp (lit ++ 0x2E :: ds) r
  | _ => scanExp lit s

/-- The integer part of a number after an optional sign `lit` (`stateNeg`, `state0`,
`state1`), followed by fraction and exponent. -/
def scanInt (lit s : GoString) : Option (GoString × GoString) :=
  match s with
  | [] => none
  | c :: t =>
    if c = 0x30 then scanFrac (lit ++ [c]) t
    else if 0x31 ≤ c ∧ c ≤ 0x39 then
      scanFrac (lit ++ c :: (spanDigits t).1) (spanDigits t).2
    else none

/-- A number literal: its text and the input that follows it. -/
def scanNumber (s : GoString) : Option (GoString × GoString) :=
  match s with
  | 0x2D :: t => scanInt [0x2D] t
  | _ => scanInt [] s

/-- The scanner's `maxNestingDepth`. -/
def maxNestingDepth : Nat := 10000

mutual

/-- One JSON value at the head of `s` (which does not start with white space), at nesting
depth `depth`: the value and the input after it. -/
def parseValue : Nat → Nat → GoString → Option (JSON × GoString)
  | 0, _, _ => none
  | fuel + 1, depth, s =>
    match s with
    | [] => none
    | c :: t =>
      if c = 0x7B then
        if depth + 1 > maxNestingDepth then none
        else
          match skipSpace t with
          | 0x7D :: r => some (JSON.object [], r)
          | t1 => (parseMembers fuel (depth + 1) t1).map (fun p => (JSON.object p.1, p.2))
      else if c = 0x5B then
        if depth + 1 > maxNestingDepth then none
        else
          match skipSpace t with
          | 0x5D :: r => some (JSON.array [], r)
          | t1 => (parseElems fuel (depth + 1) t1).map (fun p => (JSON.array p.1, p.2))
      else if c = 0x22 then (scanString t).map (fun p => (JSON.string p.1, p.2))
      else if c = 0x2D ∨ isDigit c = true then
        (scanNumber s).map (fun p => (JSON.number p.1, p.2))
      else
        match s with
        | 0x74 :: 0x72 :: 0x75 :: 0x65 :: r => some (JSON.bool true, r)
        | 0x66 :: 0x61 :: 0x6C :: 0x73 :: 0x65 :: r => some (JSON.bool false, r)
        | 0x6E :: 0x75 :: 0x6C :: 0x6C :: r => some (JSON.null, r)
        | _ => none

/-- The elements of a non-empty array, from the first byte of an element up to and
including the closing bracket. -/
def parseElems : Nat → Nat → GoString → Option (List JSON × GoString)
  | 0, _, _ => none
  | fuel + 1, depth, s =>
    match parseValue fuel depth s with
    | none => none
    | some (v, r) =>
      match skipSpace r with
      | 0x2C :: r1 =>
        (parseElems fuel depth (skipSpace r1)).map (fun p => (v :: p.1, p.2))
      | 0x5D :: r1 => some ([v], r1)
      | _ => none

/-- The members of a non-empty object, from the opening quote of a key up to and
including the closing brace. -/
def parseMembers : Nat → Nat → GoString → Option (List (GoString × JSON) × GoString)
  | 0, _, _ => none
  | fuel + 1, depth, s =>
    match s with
    | 0x22 :: t =>
      match scanString t with
      | none => none
      | some (key, r) =>
        match skipSpace r with
        | 0x3A :: r1 =>
          match parseValue fuel depth (skipSpace r1) with
          | none => none
          | some (v, r2) =>
            match skipSpace r2 with
            | 0x2C :: r3 =>
              (parseMembers fuel depth (skipSpace r3)).map (fun p => ((key, v) :: p.1, p.2))
            | 0x7D :: r3 => some ([(key, v)], r3)
            | _ => none
        | _ => none
    | _ => none

end

/-- The function `checkValid` together with the delimiting of values: the single JSON
value that `data` holds, surrounded by optional white space; `none` for a syntax error. -/
def parse (data : GoString) : Option JSON :=
  match parseValue (2 * data.length + 2) 0 (skipSpace data) with
  | none => none
  | some (v, r) => if skipSpace r = [] then some v else none

end json

/-! ## go/message/message.go -/

namespace message

/-- The struct `Message`: the schema for a message.  The JSON member names of the fields
are `id`, `content` and `wait_time` (their struct tags). -/
structure Message where
  ID : GoString
  Content : GoString
  WaitTime : Int
  deriving DecidableEq, Repr

/-- The function `NewMessage`. -/
def NewMessage (id content : GoString) (waitTime : Int) : Message :=
  { ID := id, Content := content, WaitTime := waitTime }

/-- The zero value of `Message`, what `var msg Message` declares. -/
def zero : Message := { ID := [], Content := [], WaitTime := 0 }

end message

namespace json

open message

/-- The fields of `Message`, in declaration order. -/
inductive Field where
  | ID : Field
  | Content : Field
  | WaitTime : Field
  deriving DecidableEq, Repr

/-- The JSON name of a field, from its struct tag: `id`, `content`, `wait_time`. -/
def Field.name : Field → GoString
  | Field.ID => [0x69, 0x64]
  | Field.Content => [0x63, 0x6F, 0x6E, 0x74, 0x65, 0x6E, 0x74]
  | Field.WaitTime => [0x77, 0x61, 0x69, 0x74, 0x5F, 0x74, 0x69, 0x6D, 0x65]

/-- The field list the encoder and decoder build for `Message`. -/
def fields : List Field := [Field.ID, Field.Content, Field.WaitTime]

/-- The function `foldName` on the bytes that can take part in a match with the three
field names: ASCII lower-case letters are folded to upper case.  (A rune outside ASCII
folds to a rune outside ASCII or to `K` or `S`, none of which occurs in a field name of
`Message`, so such bytes are left as they are.) -/
def foldName (s : GoString) : GoString :=
  s.map (fun c => if 0x61 ≤ c ∧ c ≤ 0x7A then c - 0x20 else c)

/-- The field an object key selects in `decodeState.object`: the field with exactly this
name, else the first field whose folded name equals the folded key. -/
def findField (key : GoString) : Option Field :=
  match fields.find? (fun f => decide (f.name = key)) with
  | some f => some f
  | none => fields.find? (fun f => decide (foldName f.name = foldName key))

/-- The function `Marshal` at type `*Message`, with its two results `([]byte, error)`: an
object with the three members in field order.  It has no failing case for a struct of two
strings and an int, so the error is always `nil`. -/
def Marshal (m : Message) : GoString × Option Error :=
  ([0x7B, 0x22, 0x69, 0x64, 0x22, 0x3A] ++ appendString m.ID
      ++ [0x2C, 0x22, 0x63, 0x6F, 0x6E, 0x74, 0x65, 0x6E, 0x74, 0x22, 0x3A]
      ++ appendString m.Content
      ++ [0x2C, 0x22, 0x77, 0x61, 0x69, 0x74, 0x5F, 0x74, 0x69, 0x6D, 0x65, 0x22, 0x3A]
      ++ strconv.FormatInt m.WaitTime ++ [0x7D], none)

/-- The decoder's state while it fills a `Message`: the struct written so far and the
first type error met (`savedError`). -/
structure decodeState where
  msg : Message
  savedError : Option Error

/-- The method `saveError`: keeps the first error. -/
def decodeState.saveError (d : decodeState) (e : Error) : decodeState :=
  match d.savedError with
  | none => { d with savedError := some e }
  | some _ => d

/-- Decoding of one member value into the field the key selected (`decodeState.value`
on the field): `null` leaves the field alone, a string goes into a string field, a number
literal that `strconv.ParseInt` accepts goes into the int field, and every other
combination is an `UnmarshalTypeError` that is saved while decoding goes on. -/
def decodeState.store (d : decodeState) (f : Field) (v : JSON) : decodeState :=
  match v with
  | JSON.null => d
  | JSON.string s =>
    match f with
    | Field.ID => { d with msg := { d.msg with ID := s } }
    | Field.Content => { d with msg := { d.msg with Content := s } }
    | Field.WaitTime => d.saveError Error.unmarshalType
  | JSON.number lit =>
    match f with
    | Field.WaitTime =>
      match strconv.ParseInt lit with
      | some n => { d with msg := { d.msg with WaitTime := n } }
      | none => d.saveError Error.unmarshalType
    | _ => d.saveError Error.unmarshalType
  | JSON.bool _ => d.saveError Error.unmarshalType
  | JSON.array _ => d.saveError Error.unmarshalType
  | JSON.object _ => d.saveError Error.unmarshalType

/-- One iteration of the member loop of `decodeState.object`: a key that selects no field
has its value skipped. -/
def decodeState.member (d : decodeState) (kv : GoString × JSON) : decodeState :=
  match findField kv.1 with
  | some f => d.store f kv.2
  | none => d

/-- The function `Unmarshal(data, &v)` at type `*Message`: the struct after the call and
the error returned.  A syntax error leaves `v` untouched; an object assigns its members in
order; `null` is a no-op; any other value is an `UnmarshalTypeError`. -/
def Unmarshal (data : GoString) (v : Message) : Message × Option Error :=
  match parse data with
  | none => (v, some Error.invalidJSON)
  | some (JSON.object members) =>
    let d := members.foldl decodeState.member { msg := v, savedError := none }
    (d.msg, d.savedError)
  | some JSON.null => (v, none)
  | some _ => (v, some Error.unmarshalType)

end json

namespace message

/-- The method `ToJSON`: converts the Message to a JSON string.  The results are Go's
`(string, error)`; the wrapping of the error by `fmt.Errorf` is not represented. -/
def Message.ToJSON (m : Message) : GoString × Option json.Error :=
  match json.Marshal m with
  | (_, some err) => ([], some err)
  | (data, none) => (data, none)

/-- The function `FromJSON`: parses a JSON string into a Message.  The results are Go's
`(*Message, error)`, the pointer being `nil` exactly when the error is not. -/
def FromJSON (data : GoString) : Option Message × Option json.Error :=
  match json.Unmarshal data zero with
  | (_, some err) => (none, some err)
  | (msg, none) => (some msg, none)

end message

/-! ## Go maps, the AMQP header table, encoding/hex and strings.Cut -/

namespace Go

/-- A Go `map[string]V`: entries with pairwise different keys.  A `range` loop visits the
entries in an order the language leaves open, so the loops below take the visiting order
as an argument (a permutation of `entries`). -/
abbrev GoMap (V : Type) := AList (fun _ : GoString => V)

/-- An entry of a `map[string]V`. -/
abbrev Entry (V : Type) := Sigma (fun _ : GoString => V)

end Go

namespace amqp

/-- A value of an AMQP header table as the client library delivers it: the dynamic types
of the `interface{}` values of `amqp.Table`. -/
inductive Value where
  | nil : Value
  | bool (b : Bool) : Value
  | int (i : Int) : Value
  | float (bits : Nat) : Value
  | decimal (scale : Nat) (value : Int) : Value
  | str (s : GoString) : Value
  | bytes (b : GoString) : Value
  | timestamp (t : Int) : Value
  | array (a : List Value) : Value
  | table (t : List (GoString × Value)) : Value

/-- The type `amqp.Table`, a `map[string]interface{}`. -/
abbrev Table := GoMap Value

/-- The type `amqp.Publishing`, with the fields the producer sets. -/
structure Publishing where
  ContentType : GoString
  Body : GoString
  Headers : Table

/-- The type `amqp.Delivery`, with the fields the consumer reads. -/
structure Delivery where
  Headers : Table
  Body : GoString

end amqp

namespace hex

/-- The table `hextable = "0123456789abcdef"`. -/
def hextable (n : Nat) : Nat := if n < 10 then 0x30 + n else 0x57 + n

/-- The function `hex.Encode`: two lower-case hexadecimal digits per byte. -/
def Encode : List Nat → GoString
  | [] => []
  | b :: t => hextable (b / 16) :: hextable (b % 16) :: Encode t

/-- The function `fromHexChar`. -/
def fromHexChar (c : Nat) : Option Nat :=
  if 0x30 ≤ c ∧ c ≤ 0x39 then some (c - 0x30)
  else if 0x61 ≤ c ∧ c ≤ 0x66 then some (c - 0x61 + 10)
  else if 0x41 ≤ c ∧ c ≤ 0x46 then some (c - 0x41 + 10)
  else none

/-- The function `hex.Decode`: the bytes of a hexadecimal string, `none` for an invalid
digit or an odd length. -/
def Decode : GoString → Option (List Nat)
  | [] => some []
  | [_] => none
  | a :: b :: t =>
    match fromHexChar a, fromHexChar b with
    | some x, some y => (Decode t).map (fun r => (x * 16 + y) :: r)
    | _, _ => none

end hex

namespace strings

/-- The function `strings.Cut(s, "-")`, without its third result: the text before the
first `-` and the text after it; all of `s` and the empty string when there is none. -/
def Cut : GoString → GoString × GoString
  | [] => ([], [])
  | c :: t => if c = 0x2D then ([], t) else (c :: (Cut t).1, (Cut t).2)

end strings

/-! ## go.opentelemetry.io/otel: span contexts and the W3C trace-context propagator -/

namespace trace

/-- The type `trace.SpanContext` without its trace state: `TraceID` is a `[16]byte`,
`SpanID` a `[8]byte`, `TraceFlags` a byte. -/
structure SpanContext where
  TraceID : List Nat
  SpanID : List Nat
  TraceFlags : Nat
  Remote : Bool
  deriving DecidableEq, Repr

/-- The zero value `trace.SpanContext{}`. -/
def SpanContext.zero : SpanContext :=
  { TraceID := List.replicate 16 0, SpanID := List.replicate 8 0, TraceFlags := 0,
    Remote := false }

/-- The values of the Go type: sixteen and eight bytes and a flag byte. -/
def SpanContext.wellTyped (sc : SpanContext) : Prop :=
  sc.TraceID.length = 16 ∧ sc.SpanID.length = 8 ∧ (∀ b ∈ sc.TraceID, b < 256)
    ∧ (∀ b ∈ sc.SpanID, b < 256) ∧ sc.TraceFlags < 256

instance (sc : SpanContext) : Decidable sc.wellTyped := by
  unfold SpanContext.wellTyped; infer_instance

/-- The method `SpanContext.IsValid`: a non-zero trace id and a non-zero span id. -/
def SpanContext.IsValid (sc : SpanContext) : Bool :=
  decide (sc.TraceID ≠ List.replicate 16 0) && decide (sc.SpanID ≠ List.replicate 8 0)

end trace

namespace propagation

open trace

/-- The type `propagation.MapCarrier`, a `map[string]string`. -/
abbrev MapCarrier := GoMap GoString

/-- The method `MapCarrier.Get`: the value stored under `key`, the empty string when
there is none. -/
def MapCarrier.Get (c : MapCarrier) (key : GoString) : GoString :=
  (c.lookup key).getD []

/-- The method `MapCarrier.Set`. -/
def MapCarrier.Set (c : MapCarrier) (key value : GoString) : MapCarrier :=
  c.insert key value

/-- The header name `traceparent`. -/
def traceparentHeader : GoString :=
  [0x74, 0x72, 0x61, 0x63, 0x65, 0x70, 0x61, 0x72, 0x65, 0x6E, 0x74]

/-- The method `TraceContext.Inject` for a span context with empty trace state (a span
the tracer starts from `context.Background()` has none, and then no `tracestate` header is
written): `traceparent` is set to `00-<trace id>-<span id>-<flags>` in lower-case
hexadecimal, the flags masked to the sampling bit; nothing is written for an invalid span
context. -/
def TraceContext.Inject (sc : SpanContext) (carrier : MapCarrier) : MapCarrier :=
  if sc.IsValid = false then carrier
  else
    carrier.Set traceparentHeader
      ([0x30, 0x30] ++ 0x2D :: hex.Encode sc.TraceID ++ 0x2D :: hex.Encode sc.SpanID
        ++ 0x2D :: hex.Encode [sc.TraceFlags % 2])

/-- The function `upperHex`: some character is one of `A`..`F`. -/
def upperHex (v : GoString) : Bool := v.any (fun c => decide (0x41 ≤ c) && decide (c ≤ 0x46))

/-- The function `extractPart(dst, &h, n)`: cuts the next `-`-separated part off `h` and
decodes it when it is `n` lower-case hexadecimal digits.  The results are the success
flag, the decoded bytes (the new content of `dst`) and the new value of `h`. -/
def extractPart (h : GoString) (n : Nat) : Bool × List Nat × GoString :=
  let part := (strings.Cut h).1
  let left := (strings.Cut h).2
  if part.length ≠ n ∨ upperHex part = true then (false, [], left)
  else
    match hex.Decode part with
    | none => (false, [], left)
    | some p => if p.length ≠ n / 2 then (false, [], left) else (true, p, left)

/-- The method `TraceContext.extract`: the span context the `traceparent` header of the
carrier encodes, marked remote; the zero span context when the header is missing or
malformed or encodes an invalid span context. -/
def TraceContext.extract (carrier : MapCarrier) : SpanContext :=
  let h := carrier.Get traceparentHeader
  if h = [] then SpanContext.zero
  else
    match extractPart h 2 with
    | (false, _, _) => SpanContext.zero
    | (true, ver, h1) =>
      if ver.headD 0 > 254 then SpanContext.zero
      else
        match extractPart h1 32 with
        | (false, _, _) => SpanContext.zero
        | (true, traceID, h2) =>
          match extractPart h2 16 with
          | (false, _, _) => SpanContext.zero
          | (true, spanID, h3) =>
            match extractPart h3 2 with
            | (false, _, _) => SpanContext.zero
            | (true, opts, h4) =>
              if ver.headD 0 = 0 ∧ (h4 ≠ [] ∨ opts.headD 0 > 2) then SpanContext.zero
              else
                let sc : SpanContext :=
                  { TraceID := traceID, SpanID := spanID, TraceFlags := opts.headD 0 % 2,
                    Remote := true }
                if sc.IsValid = false then SpanContext.zero else sc

/-- A `context.Context` as far as the two services use it: the span context it carries
(the zero span context when it carries none).  Baggage is left out: neither service puts
any into a context, the baggage propagator then writes no header, and what it reads never
touches the span context. -/
structure Context where
  spanContext : SpanContext
  deriving DecidableEq, Repr

/-- The context `context.Background()`. -/
def Background : Context := { spanContext := SpanContext.zero }

/-- The method `Inject` of the global propagator both services install,
`NewCompositeTextMapPropagator(TraceContext{}, Baggage{})`. -/
def Inject (ctx : Context) (carrier : MapCarrier) : MapCarrier :=
  TraceContext.Inject ctx.spanContext carrier

/-- The method `Extract` of the same propagator: the context gets the extracted span
context as its remote parent when that is valid, and is returned unchanged otherwise. -/
def Extract (ctx : Context) (carrier : MapCarrier) : Context :=
  let sc := TraceContext.extract carrier
  if sc.IsValid = false then ctx else { spanContext := sc }

end propagation

/-! ## go/producer_service/main.go -/

namespace producer

open message propagation trace

/-- The constant `queueName`, `"work"`. -/
def queueName : GoString := [0x77, 0x6F, 0x72, 0x6B]

/-- What one iteration of the publishing loop takes from its environment: the value
`rand.Intn(20)` returns, the span context of the span `tracer.Start` opens, and whether
`ch.Publish` returns without error. -/
structure Step where
  r : Fin 20
  span : SpanContext
  published : Bool

/-- The envelope an iteration creates: `waitTime := rand.Intn(20) + 1` and
`message.NewMessage(fmt.Sprintf("%d", messageID), fmt.Sprintf("Message #%d", messageID),
waitTime)`. -/
def generate (messageID : Int) (r : Nat) : Message :=
  let waitTime : Int := (r : Int) + 1
  NewMessage (strconv.FormatInt messageID)
    ([0x4D, 0x65, 0x73, 0x73, 0x61, 0x67, 0x65, 0x20, 0x23] ++ strconv.FormatInt messageID)
    waitTime

/-- The loop `for k, v := range headers { amqpHeaders[k] = v }`, the entries of `headers`
being visited in the order `visit`. -/
def amqpHeaders (visit : List (Entry GoString)) : amqp.Table :=
  visit.foldl (fun t e => t.insert e.1 (amqp.Value.str e.2)) ∅

/-- The `amqp.Publishing` handed to `ch.Publish`: content type `application/json`, the
serialized envelope as body, and the injected trace context as headers. -/
def publishing (ctx : Context) (jsonMsg : GoString) : amqp.Publishing :=
  let headers : MapCarrier := Inject ctx ∅
  { ContentType :=
      [0x61, 0x70, 0x70, 0x6C, 0x69, 0x63, 0x61, 0x74, 0x69, 0x6F, 0x6E, 0x2F, 0x6A, 0x73,
        0x6F, 0x6E],
    Body := jsonMsg,
    Headers := amqpHeaders headers.entries }

/-- What an iteration leaves behind, one event per iteration: serialization failed
(nothing was sent); `ch.Publish` failed (error recorded on the span, span ended); or the
message was published (attributes set on the span, span ended, one second slept). -/
inductive Event where
  | serializeFailed (msg : Message) : Event
  | publishFailed (msg : Message) (p : amqp.Publishing) : Event
  | sent (msg : Message) (p : amqp.Publishing) : Event

/-- The envelope generated in the iteration that left the event. -/
def Event.msg : Event → Message
  | Event.serializeFailed m => m
  | Event.publishFailed m _ => m
  | Event.sent m _ => m

/-- The envelope of a successful publish together with the `amqp.Publishing` that was
handed to `ch.Publish` for it. -/
def Event.sentPair : Event → Option (Message × amqp.Publishing)
  | Event.sent m p => some (m, p)
  | _ => none

/-- The loop state: the counter `messageID` and the events of the iterations so far.
The counter starts at 1 and `messageID++` is its only assignment, reached once per
successful publish and followed by `time.Sleep(1 * time.Second)`; reaching the end of the
range of `int` would take `2 ^ 63` such seconds.  The counter is therefore an unbounded
integer here, and `messageID++` is `+ 1`. -/
structure State where
  messageID : Int
  log : List Event

/-- The state before the first iteration: `messageID := 1`. -/
def State.init : State := { messageID := 1, log := [] }

/-- One iteration of the loop `for { ... }` of `main`.  Both `continue` statements leave
`messageID` as it is; only the path through a successful publish reaches `messageID++`. -/
def iteration (st : State) (inp : Step) : State :=
  let msg := generate st.messageID inp.r
  match msg.ToJSON with
  | (_, some _) => { st with log := st.log ++ [Event.serializeFailed msg] }
  | (jsonMsg, none) =>
    let p := publishing { spanContext := inp.span } jsonMsg
    if inp.published = false then { st with log := st.log ++ [Event.publishFailed msg p] }
    else { messageID := st.messageID + 1, log := st.log ++ [Event.sent msg p] }

/-- The first `steps.length` iterations of the loop. -/
def run (steps : List Step) : State := steps.foldl iteration State.init

/-- The envelopes generated so far, one per iteration. -/
def generated (st : State) : List Message := st.log.map Event.msg

/-- The successful publishes so far, in order: each envelope with the `amqp.Publishing`
that `ch.Publish` accepted for it. -/
def published (st : State) : List (Message × amqp.Publishing) :=
  st.log.filterMap Event.sentPair

end producer

/-! ## go/consumer_service/main.go -/

namespace consumer

open message propagation trace

/-- The loop that builds `headers` from `d.Headers`, keeping the entries whose value is a
string (`v.(string)` succeeds), the entries being visited in the order `visit`. -/
def headers (visit : List (Entry amqp.Value)) : MapCarrier :=
  visit.foldl
    (fun h e =>
      match e.2 with
      | amqp.Value.str strVal => h.insert e.1 strVal
      | _ => h)
    ∅

/-- The context extracted from the headers of a delivery:
`otel.GetTextMapPropagator().Extract(context.Background(), carrier)`. -/
def extractedContext (visit : List (Entry amqp.Value)) : Context :=
  Extract Background (headers visit)

/-- What the loop body does that can be observed from outside, in order. -/
inductive Event where
  | spanStart (parent : SpanContext) : Event
  | setQueueAttribute : Event
  | recordError (err : json.Error) : Event
  | setMessageAttributes (id content : GoString) (waitTime : Int) : Event
  | sleep (nanoseconds : Int) : Event
  | spanEnd : Event
  deriving DecidableEq, Repr

/-- The body of the loop `for d := range msgs` for one delivery.  The span is started as a
child of the extracted context and gets the queue attribute; when `json.Unmarshal` fails
the error is recorded, the span ended and the loop continues; otherwise the message
attributes are set, `time.Sleep(time.Duration(msg.WaitTime) * time.Second)` runs and the
span is ended. -/
def handle (d : amqp.Delivery) : List Event :=
  let ctx := extractedContext d.Headers.entries
  let start := [Event.spanStart ctx.spanContext, Event.setQueueAttribute]
  match json.Unmarshal d.Body message.zero with
  | (_, some err) => start ++ [Event.recordError err, Event.spanEnd]
  | (msg, none) =>
    start ++
      [Event.setMessageAttributes msg.ID msg.Content msg.WaitTime,
        Event.sleep (wrapInt64 (msg.WaitTime * 1000000000)), Event.spanEnd]

/-- The loop `for d := range msgs` over the deliveries received before the channel is
closed: the events of all iterations. -/
def loop (msgs : List amqp.Delivery) : List Event :=
  msgs.foldl (fun log d => log ++ handle d) []

end consumer

/-! ## Auxiliary definitions used in the statements -/

namespace consumer

/-- The string a header value holds, when it is a string (the type assertion
`v.(string)`). -/
def strOf : amqp.Value → Option GoString
  | amqp.Value.str s => some s
  | _ => none

end consumer

/-! ## Concrete inputs -/

namespace Example

/-- A header table with a string entry `b = "x"` and an integer entry `a = 5`. -/
def mixedTable : amqp.Table :=
  AList.mk [⟨[0x62], amqp.Value.str [0x78]⟩, ⟨[0x61], amqp.Value.int 5⟩]
    (by simp [List.NodupKeys])

/-- A carrier with the two entries `b = "2"` and `a = "1"`. -/
def twoEntryCarrier : propagation.MapCarrier :=
  AList.mk [⟨[0x62], [0x32]⟩, ⟨[0x61], [0x31]⟩] (by simp [List.NodupKeys])

/-- A valid span context: the trace id `4bf92f3577b34da6a3ce929d0e0e4736`, the span id
`00f067aa0ba902b7`, sampled. -/
def spanContext : trace.SpanContext :=
  { TraceID := [75, 249, 47, 53, 119, 179, 77, 166, 163, 206, 146, 157, 14, 14, 71, 54],
    SpanID := [0, 240, 103, 170, 11, 169, 2, 183], TraceFlags := 1, Remote := false }

end Example

namespace producer

/-- The event an iteration leaves when it starts with the counter value `messageID`. -/
def stepEvent (messageID : Int) (inp : Step) : Event :=
  if inp.published = false then
    Event.publishFailed (generate messageID inp.r)
      (publishing { spanContext := inp.span } (generate messageID inp.r).ToJSON.1)
  else
    Event.sent (generate messageID inp.r)
      (publishing { spanContext := inp.span } (generate messageID inp.r).ToJSON.1)

/-- The events of the iterations for `steps` when the first of them starts with the
counter value `messageID`: the counter moves on after a successful publish only. -/
def logFrom : Int → List Step → List Event
  | _, [] => []
  | messageID, inp :: rest =>
    stepEvent messageID inp
      :: logFrom (if inp.published = false then messageID else messageID + 1) rest

end producer

namespace json

/-- The member values the decoder stores into a field or passes over without an error:
`null` for every field, a string for the two string fields, and for the int field a number
literal that `strconv.ParseInt` accepts. -/
def Field.accepts (f : Field) (v : JSON) : Bool :=
  match v with
  | JSON.null => true
  | JSON.string _ =>
    match f with
    | Field.WaitTime => false
    | _ => true
  | JSON.number lit =>
    match f with
    | Field.WaitTime => (strconv.ParseInt lit).isSome
    | _ => false
  | _ => false

/-- The field of a message has its zero value: the empty string, or 0. -/
def Field.isZeroIn (f : Field) (m : message.Message) : Prop :=
  match f with
  | Field.ID => m.ID = []
  | Field.Content => m.Content = []
  | Field.WaitTime => m.WaitTime = 0

/-- The object has no member whose key selects the field `f`. -/
def Field.absentFrom (f : Field) (members : List (GoString × JSON)) : Prop :=
  ∀ kv ∈ members, findField kv.1 ≠ some f

/-- A JSON value that is neither an integer number nor `null`: a string, a boolean, an
array, an object, or a number whose literal has a fraction or an exponent part. -/
def JSON.isNonIntegerNonNull : JSON → Bool
  | JSON.null => false
  | JSON.bool _ => true
  | JSON.string _ => true
  | JSON.array _ => true
  | JSON.object _ => true
  | JSON.number lit =>
    lit.any (fun c => decide (c = 0x2E) || decide (c = 0x65) || decide (c = 0x45))

end json

namespace utf8

/-- The bytes `s0 s1` are a well-formed two-byte sequence. -/
def wellFormed2 (s0 s1 : Nat) : Prop :=
  0xC2 ≤ s0 ∧ s0 < 0xE0 ∧ 0x80 ≤ s1 ∧ s1 ≤ 0xBF

/-- The bytes `s0 s1 s2` are a well-formed three-byte sequence (no overlong form, no
surrogate). -/
def wellFormed3 (s0 s1 s2 : Nat) : Prop :=
  0xE0 ≤ s0 ∧ s0 < 0xF0 ∧ 0x80 ≤ s1 ∧ s1 ≤ 0xBF ∧ (s0 = 0xE0 → 0xA0 ≤ s1)
    ∧ (s0 = 0xED → s1 ≤ 0x9F) ∧ 0x80 ≤ s2 ∧ s2 ≤ 0xBF

/-- The bytes `s0 s1 s2 s3` are a well-formed four-byte sequence (no overlong form,
nothing above U+10FFFF). -/
def wellFormed4 (s0 s1 s2 s3 : Nat) : Prop :=
  0xF0 ≤ s0 ∧ s0 < 0xF5 ∧ 0x80 ≤ s1 ∧ s1 ≤ 0xBF ∧ (s0 = 0xF0 → 0x90 ≤ s1)
    ∧ (s0 = 0xF4 → s1 ≤ 0x8F) ∧ 0x80 ≤ s2 ∧ s2 ≤ 0xBF ∧ 0x80 ≤ s3 ∧ s3 ≤ 0xBF

end utf8

namespace Example

/-- A delivery without headers whose body `{b` is not valid JSON. -/
def malformedDelivery : amqp.Delivery := { Headers := ∅, Body := [0x7B, 0x62] }

/-- A delivery without headers whose body is `{"id":"1","content":"x","wait_time":2}`. -/
def goodDelivery : amqp.Delivery :=
  { Headers := ∅,
    Body :=
      [0x7B, 0x22, 0x69, 0x64, 0x22, 0x3A, 0x22, 0x31, 0x22, 0x2C, 0x22, 0x63, 0x6F, 0x6E,
        0x74, 0x65, 0x6E, 0x74, 0x22, 0x3A, 0x22, 0x78, 0x22, 0x2C, 0x22, 0x77, 0x61, 0x69,
        0x74, 0x5F, 0x74, 0x69, 0x6D, 0x65, 0x22, 0x3A, 0x32, 0x7D] }

/-- A run of three iterations: a failed publish followed by two successful ones. -/
def failThenTwo : List producer.Step :=
  [{ r := 0, span := spanContext, published := false },
    { r := 5, span := spanContext, published := true },
    { r := 19, span := spanContext, published := true }]

/-- A run of two iterations: a failed publish followed by a successful one. -/
def failThenOk : List producer.Step :=
  [{ r := 0, span := spanContext, published := false },
    { r := 5, span := spanContext, published := true }]

end Example

/-! # Lemmas and theorems -/

/-! ## Range loops over maps -/


theorem consumer_headers_foldl_lookup (visit : List (Entry amqp.Value))
    (init : propagation.MapCarrier) (k : GoString) (nd : visit.NodupKeys) :
    (visit.foldl
        (fun (h : propagation.MapCarrier) e =>
          match e.2 with
          | amqp.Value.str strVal => h.insert e.1 strVal
          | _ => h)
        init).lookup k
      = match (List.dlookup k visit).bind consumer.strOf with
        | some s => some s
        | none => init.lookup k := by
  induction visit generalizing init with
  | nil => simp
  | cons e t ih =>
    obtain ⟨a, v⟩ := e
    rw [List.nodupKeys_cons] at nd
    obtain ⟨hk, ndt⟩ := nd
    rw [List.foldl_cons, ih _ ndt]
    by_cases hak : k = a
    · subst hak
      have hnone : List.dlookup k t = none := List.dlookup_eq_none.mpr hk
      rw [hnone, List.dlookup_cons_eq]
      cases v <;> simp [consumer.strOf]
    · rw [List.dlookup_cons_ne _ _ hak]
      cases hb : (List.dlookup k t).bind consumer.strOf with
      | some s => rfl
      | none =>
        cases v <;> simp [AList.lookup_insert_ne hak]

theorem consumer_headers_lookup (visit : List (Entry amqp.Value)) (k : GoString)
    (nd : visit.NodupKeys) :
    (consumer.headers visit).lookup k = (List.dlookup k visit).bind consumer.strOf := by
  unfold consumer.headers
  rw [consumer_headers_foldl_lookup visit ∅ k nd]
  cases (List.dlookup k visit).bind consumer.strOf <;> simp

theorem producer_amqpHeaders_foldl_lookup (visit : List (Entry GoString)) (init : amqp.Table)
    (k : GoString) (nd : visit.NodupKeys) :
    (visit.foldl (fun (t : amqp.Table) e => t.insert e.1 (amqp.Value.str e.2)) init).lookup k
      = match List.dlookup k visit with
        | some s => some (amqp.Value.str s)
        | none => init.lookup k := by
  induction visit generalizing init with
  | nil => simp
  | cons e t ih =>
    obtain ⟨a, v⟩ := e
    rw [List.nodupKeys_cons] at nd
    obtain ⟨hk, ndt⟩ := nd
    rw [List.foldl_cons, ih _ ndt]
    by_cases hak : k = a
    · subst hak
      have hnone : List.dlookup k t = none := List.dlookup_eq_none.mpr hk
      rw [hnone, List.dlookup_cons_eq]
      simp
    · rw [List.dlookup_cons_ne _ _ hak]
      cases hb : List.dlookup k t with
      | some s => rfl
      | none => simp [AList.lookup_insert_ne hak]

theorem producer_amqpHeaders_lookup (visit : List (Entry GoString)) (k : GoString)
    (nd : visit.NodupKeys) :
    (producer.amqpHeaders visit).lookup k
      = (List.dlookup k visit).map amqp.Value.str := by
  unfold producer.amqpHeaders
  rw [producer_amqpHeaders_foldl_lookup visit ∅ k nd]
  cases List.dlookup k visit <;> simp

/-- Copying a carrier into a header table and filtering the table back, for any visiting
orders of the two loops, gives a carrier with the same lookups. -/
theorem carrier_roundtrip_lookup (h : propagation.MapCarrier) (visit₁ : List (Entry GoString))
    (visit₂ : List (Entry amqp.Value)) (p₁ : visit₁.Perm h.entries)
    (p₂ : visit₂.Perm (producer.amqpHeaders visit₁).entries) (k : GoString) :
    (consumer.headers visit₂).lookup k = h.lookup k := by
  have nd₁ : visit₁.NodupKeys := (List.perm_nodupKeys p₁).mpr h.nodupKeys
  have nd₂ : visit₂.NodupKeys :=
    (List.perm_nodupKeys p₂).mpr (producer.amqpHeaders visit₁).nodupKeys
  rw [consumer_headers_lookup visit₂ k nd₂,
    List.perm_dlookup k nd₂ (producer.amqpHeaders visit₁).nodupKeys p₂]
  have h1 := producer_amqpHeaders_lookup visit₁ k nd₁
  rw [AList.lookup] at h1
  rw [h1, List.perm_dlookup k nd₁ h.nodupKeys p₁, AList.lookup]
  cases List.dlookup k h.entries <;> simp [consumer.strOf]

/-! ## Hexadecimal coding and the traceparent header -/

theorem hex_fromHexChar_hextable (n : Nat) (h : n < 16) :
    hex.fromHexChar (hex.hextable n) = some n := by
  unfold hex.fromHexChar hex.hextable
  by_cases h10 : n < 10
  · rw [if_pos h10, if_pos (by omega)]
    congr 1
    omega
  · rw [if_neg h10, if_neg (by omega), if_pos (by omega)]
    congr 1
    omega

theorem hex_hextable_ne_dash (n : Nat) (h : n < 16) : hex.hextable n ≠ 0x2D := by
  unfold hex.hextable
  split_ifs <;> omega

theorem hex_hextable_not_upper (n : Nat) (h : n < 16) :
    (decide (0x41 ≤ hex.hextable n) && decide (hex.hextable n ≤ 0x46)) = false := by
  unfold hex.hextable
  split_ifs <;> simp <;> omega

theorem hex_Decode_Encode (l : List Nat) (h : ∀ b ∈ l, b < 256) :
    hex.Decode (hex.Encode l) = some l := by
  induction l with
  | nil => rfl
  | cons b t ih =>
    have hb : b < 256 := h b (List.mem_cons_self _ _)
    have ht : ∀ c ∈ t, c < 256 := fun c hc => h c (List.mem_cons_of_mem _ hc)
    simp only [hex.Encode, hex.Decode]
    rw [hex_fromHexChar_hextable _ (by omega), hex_fromHexChar_hextable _ (by omega), ih ht]
    simp only [Option.map_some']
    congr 2
    omega

theorem hex_length_Encode (l : List Nat) : (hex.Encode l).length = 2 * l.length := by
  induction l with
  | nil => rfl
  | cons b t ih => simp only [hex.Encode, List.length_cons, ih]; omega

theorem hex_upperHex_Encode (l : List Nat) (h : ∀ b ∈ l, b < 256) :
    propagation.upperHex (hex.Encode l) = false := by
  induction l with
  | nil => rfl
  | cons b t ih =>
    have hb : b < 256 := h b (List.mem_cons_self _ _)
    have ht : ∀ c ∈ t, c < 256 := fun c hc => h c (List.mem_cons_of_mem _ hc)
    have ih' := ih ht
    unfold propagation.upperHex at ih' ⊢
    simp only [hex.Encode, List.any_cons, ih', Bool.or_false]
    rw [hex_hextable_not_upper _ (by omega), hex_hextable_not_upper _ (by omega)]
    rfl

theorem hex_dash_not_mem_Encode (l : List Nat) (h : ∀ b ∈ l, b < 256) :
    ∀ c ∈ hex.Encode l, c ≠ 0x2D := by
  induction l with
  | nil => intro c hc; simp [hex.Encode] at hc
  | cons b t ih =>
    have hb : b < 256 := h b (List.mem_cons_self _ _)
    have ht : ∀ c ∈ t, c < 256 := fun c hc => h c (List.mem_cons_of_mem _ hc)
    intro c hc
    simp only [hex.Encode, List.mem_cons] at hc
    rcases hc with rfl | rfl | hc
    · exact hex_hextable_ne_dash _ (by omega)
    · exact hex_hextable_ne_dash _ (by omega)
    · exact ih ht c hc

theorem strings_Cut_append (x rest : GoString) (hx : ∀ c ∈ x, c ≠ 0x2D) :
    strings.Cut (x ++ 0x2D :: rest) = (x, rest) := by
  induction x with
  | nil => simp [strings.Cut]
  | cons c t ih =>
    have hc : c ≠ 0x2D := hx c (List.mem_cons_self _ _)
    have ht : ∀ d ∈ t, d ≠ 0x2D := fun d hd => hx d (List.mem_cons_of_mem _ hd)
    show strings.Cut (c :: (t ++ 0x2D :: rest)) = (c :: t, rest)
    rw [strings.Cut, if_neg hc, ih ht]

theorem strings_Cut_no_dash (x : GoString) (hx : ∀ c ∈ x, c ≠ 0x2D) :
    strings.Cut x = (x, []) := by
  induction x with
  | nil => rfl
  | cons c t ih =>
    have hc : c ≠ 0x2D := hx c (List.mem_cons_self _ _)
    have ht : ∀ d ∈ t, d ≠ 0x2D := fun d hd => hx d (List.mem_cons_of_mem _ hd)
    simp only [strings.Cut, if_neg hc, ih ht]

theorem extractPart_of_cut (h part left : GoString) (l : List Nat) (n : Nat)
    (hcut : strings.Cut h = (part, left)) (hpart : part = hex.Encode l)
    (hl : ∀ b ∈ l, b < 256) (hn : n = 2 * l.length) :
    propagation.extractPart h n = (true, l, left) := by
  subst hpart
  unfold propagation.extractPart
  simp only [hcut]
  rw [if_neg, hex_Decode_Encode l hl]
  · simp only
    rw [if_neg]
    omega
  · rw [hex_length_Encode, hex_upperHex_Encode l hl]
    simp
    omega

theorem extractPart_Encode_append (l : List Nat) (rest : GoString) (n : Nat)
    (hl : ∀ b ∈ l, b < 256) (hn : n = 2 * l.length) :
    propagation.extractPart (hex.Encode l ++ 0x2D :: rest) n = (true, l, rest) :=
  extractPart_of_cut _ _ _ l n (strings_Cut_append _ rest (hex_dash_not_mem_Encode l hl)) rfl hl hn

theorem extractPart_Encode_last (l : List Nat) (n : Nat)
    (hl : ∀ b ∈ l, b < 256) (hn : n = 2 * l.length) :
    propagation.extractPart (hex.Encode l) n = (true, l, []) :=
  extractPart_of_cut _ _ _ l n (strings_Cut_no_dash _ (hex_dash_not_mem_Encode l hl)) rfl hl hn

/-- Extraction reads back what injection wrote: from a carrier whose `traceparent` entry
is the header `TraceContext.Inject` writes for a valid span context, `extract` returns
that span context's ids, the sampling bit, and the remote mark. -/
theorem extract_of_traceparent (C : trace.SpanContext) (hw : C.wellTyped)
    (hv : C.IsValid = true) (carrier : propagation.MapCarrier)
    (hget : carrier.lookup propagation.traceparentHeader
      = some ([0x30, 0x30] ++ 0x2D :: hex.Encode C.TraceID ++ 0x2D :: hex.Encode C.SpanID
        ++ 0x2D :: hex.Encode [C.TraceFlags % 2])) :
    propagation.TraceContext.extract carrier
      = { TraceID := C.TraceID, SpanID := C.SpanID, TraceFlags := C.TraceFlags % 2,
          Remote := true } := by
  obtain ⟨ht, hs, hbt, hbs, _⟩ := hw
  have hver : ([0x30, 0x30] : GoString) = hex.Encode [0] := by decide
  have hflag : ∀ b ∈ [C.TraceFlags % 2], b < 256 := by
    intro b hb
    simp only [List.mem_singleton] at hb
    omega
  have h0 : ∀ b ∈ ([0] : List Nat), b < 256 := by decide
  unfold propagation.TraceContext.extract propagation.MapCarrier.Get
  simp only [hget, Option.getD_some]
  rw [if_neg (by simp)]
  rw [hver]
  simp only [List.append_assoc, List.cons_append]
  rw [extractPart_Encode_append [0] _ 2 h0 (by simp)]
  simp only [List.headD_cons]
  rw [if_neg (by omega)]
  rw [extractPart_Encode_append C.TraceID _ 32 hbt (by omega)]
  simp only
  rw [extractPart_Encode_append C.SpanID _ 16 hbs (by omega)]
  simp only
  rw [extractPart_Encode_last [C.TraceFlags % 2] 2 hflag (by simp)]
  simp only [List.headD_cons, Nat.mod_mod]
  rw [if_neg (by simp; omega)]
  have hv' : (trace.SpanContext.mk C.TraceID C.SpanID (C.TraceFlags % 2) true).IsValid = true := by
    unfold trace.SpanContext.IsValid at hv ⊢
    exact hv
  rw [if_neg (by rw [hv']; simp)]

/-! ## The consumer loop -/

theorem consumer_foldl_init (msgs : List amqp.Delivery) (init : List consumer.Event) :
    msgs.foldl (fun log d => log ++ consumer.handle d) init
      = init ++ msgs.foldl (fun log d => log ++ consumer.handle d) [] := by
  induction msgs generalizing init with
  | nil => simp
  | cons d t ih =>
    rw [List.foldl_cons, List.foldl_cons, ih (init ++ consumer.handle d),
      ih ([] ++ consumer.handle d)]
    simp

theorem consumer_loop_cons (d : amqp.Delivery) (msgs : List amqp.Delivery) :
    consumer.loop (d :: msgs) = consumer.handle d ++ consumer.loop msgs := by
  unfold consumer.loop
  rw [List.foldl_cons, consumer_foldl_init]
  simp

theorem consumer_loop_append (xs ys : List amqp.Delivery) :
    consumer.loop (xs ++ ys) = consumer.loop xs ++ consumer.loop ys := by
  induction xs with
  | nil => simp [consumer.loop]
  | cons d t ih => rw [List.cons_append, consumer_loop_cons, consumer_loop_cons, ih,
      List.append_assoc]

theorem consumer_handle_invalid (d : amqp.Delivery) (hbad : json.parse d.Body = none) :
    consumer.handle d
      = [consumer.Event.spanStart (consumer.extractedContext d.Headers.entries).spanContext,
          consumer.Event.setQueueAttribute,
          consumer.Event.recordError json.Error.invalidJSON,
          consumer.Event.spanEnd] := by
  unfold consumer.handle json.Unmarshal
  simp [hbad]

/-! ## Decimal formatting and parsing -/

theorem strconv_parseDigits_append (xs ys : GoString) (acc : Nat) :
    strconv.parseDigits (xs ++ ys) acc
      = (strconv.parseDigits xs acc).bind (fun a => strconv.parseDigits ys a) := by
  induction xs generalizing acc with
  | nil => simp [strconv.parseDigits]
  | cons c t ih =>
    simp only [List.cons_append, strconv.parseDigits]
    split_ifs
    · exact ih _
    · rfl

theorem strconv_parseDigits_formatBits (fuel u : Nat) (h : u < fuel) :
    strconv.parseDigits (strconv.formatBits fuel u) 0 = some u := by
  induction fuel generalizing u with
  | zero => omega
  | succ f ih =>
    unfold strconv.formatBits
    by_cases h10 : u < 10
    · rw [if_pos h10]
      simp only [strconv.parseDigits]
      rw [if_pos (by omega)]
      congr 1
      omega
    · rw [if_neg h10, strconv_parseDigits_append, ih (u / 10) (by omega)]
      simp only [Option.some_bind, strconv.parseDigits]
      rw [if_pos (by omega)]
      congr 1
      omega

/-- The shape of a formatted natural number: a single `0`, or a digit `1`..`9` followed by
digits. -/
theorem strconv_formatBits_shape (fuel u : Nat) (h : u < fuel) :
    ∃ d ds, strconv.formatBits fuel u = d :: ds
      ∧ (u = 0 → d = 0x30 ∧ ds = [])
      ∧ (0 < u → 0x31 ≤ d ∧ d ≤ 0x39)
      ∧ ∀ c ∈ ds, 0x30 ≤ c ∧ c ≤ 0x39 := by
  induction fuel generalizing u with
  | zero => omega
  | succ f ih =>
    unfold strconv.formatBits
    by_cases h10 : u < 10
    · rw [if_pos h10]
      refine ⟨0x30 + u, [], rfl, ?_, ?_, ?_⟩
      · intro h0; subst h0; exact ⟨rfl, rfl⟩
      · intro hpos; omega
      · intro c hc; simp at hc
    · rw [if_neg h10]
      obtain ⟨d, ds, heq, _, hpos, hds⟩ := ih (u / 10) (by omega)
      refine ⟨d, ds ++ [0x30 + u % 10], by rw [heq]; rfl, ?_, ?_, ?_⟩
      · intro h0; omega
      · intro _; exact hpos (by omega)
      · intro c hc
        rw [List.mem_append] at hc
        rcases hc with hc | hc
        · exact hds c hc
        · simp only [List.mem_singleton] at hc
          omega

theorem strconv_ParseUint_formatBits (fuel u : Nat) (h : u < fuel)
    (hu : u < 18446744073709551616) :
    strconv.ParseUint (strconv.formatBits fuel u) = some u := by
  obtain ⟨d, ds, heq, _⟩ := strconv_formatBits_shape fuel u h
  have hp := strconv_parseDigits_formatBits fuel u h
  rw [heq] at hp ⊢
  simp only [strconv.ParseUint, hp, if_pos hu]

/-- Parsing reads back what formatting wrote, for every value of Go's `int`. -/
theorem strconv_ParseInt_FormatInt (i : Int) (hi : isInt64 i) :
    strconv.ParseInt (strconv.FormatInt i) = some i := by
  obtain ⟨hlo, hhi⟩ := hi
  unfold minInt64 at hlo
  unfold maxInt64 at hhi
  obtain ⟨d, ds, heq, _, _, _⟩ :=
    strconv_formatBits_shape (i.natAbs + 1) i.natAbs (by omega)
  have hd : 0x30 ≤ d ∧ d ≤ 0x39 := by
    by_cases h0 : i.natAbs = 0
    · have := (‹i.natAbs = 0 → d = 0x30 ∧ ds = []›) h0
      omega
    · have := (‹0 < i.natAbs → 0x31 ≤ d ∧ d ≤ 0x39›) (by omega)
      omega
  have hpu := strconv_ParseUint_formatBits (i.natAbs + 1) i.natAbs (by omega) (by omega)
  unfold strconv.FormatInt
  by_cases hneg : i < 0
  · rw [if_pos hneg]
    simp only [strconv.ParseInt, decide_True, or_true, if_true, hpu]
    rw [if_neg (by simp), if_neg (by simp; omega)]
    congr 1
    omega
  · rw [if_neg hneg]
    rw [heq] at hpu ⊢
    have h1 : ¬ (d = 0x2B ∨ d = 0x2D) := by omega
    have h2 : decide (d = 0x2D) = false := by simp; omega
    simp only [strconv.ParseInt, if_neg h1, hpu, h2]
    rw [if_neg (by simp; omega), if_neg (by simp)]
    simp only [Bool.false_eq_true, if_false]
    congr 1
    omega

/-! ## The producer loop -/

/-- What an iteration does to the state: it appends the event of the step, and advances
the counter exactly when the publish succeeded. -/
theorem producer_iteration_eq (st : producer.State) (inp : producer.Step) :
    producer.iteration st inp
      = { messageID := if inp.published = false then st.messageID else st.messageID + 1,
          log := st.log ++ [producer.stepEvent st.messageID inp] } := by
  unfold producer.iteration producer.stepEvent message.Message.ToJSON json.Marshal
  cases hp : inp.published <;> simp

/-- The log after any number of iterations, from any state. -/
theorem producer_foldl_log (steps : List producer.Step) (st : producer.State) :
    (steps.foldl producer.iteration st).log
      = st.log ++ producer.logFrom st.messageID steps := by
  induction steps generalizing st with
  | nil => simp [producer.logFrom]
  | cons inp rest ih =>
    rw [List.foldl_cons, ih, producer_iteration_eq]
    simp [producer.logFrom]

theorem producer_run_log (steps : List producer.Step) :
    (producer.run steps).log = producer.logFrom 1 steps := by
  unfold producer.run
  rw [producer_foldl_log]
  rfl

/-- The successful publishes of a log are the successful steps, in order, the `k`-th of
them (counting from 0) generated from the counter value `messageID + k`. -/
theorem producer_logFrom_published (steps : List producer.Step) :
    ∀ (messageID : Int),
      ((producer.logFrom messageID steps).filterMap producer.Event.sentPair).length
          = (steps.filter (fun s => s.published)).length
        ∧ ∀ (k : Nat) (s : producer.Step),
            (steps.filter (fun s => s.published))[k]? = some s →
            ((producer.logFrom messageID steps).filterMap producer.Event.sentPair)[k]?
              = some (producer.generate (messageID + k) s.r,
                  producer.publishing { spanContext := s.span }
                    (producer.generate (messageID + k) s.r).ToJSON.1) := by
  induction steps with
  | nil =>
    intro messageID
    simp [producer.logFrom]
  | cons inp rest ih =>
    intro messageID
    cases hp : inp.published
    · obtain ⟨hlen, hidx⟩ := ih messageID
      have hlog : (producer.logFrom messageID (inp :: rest)).filterMap producer.Event.sentPair
          = (producer.logFrom messageID rest).filterMap producer.Event.sentPair := by
        simp [producer.logFrom, producer.stepEvent, hp, producer.Event.sentPair]
      have hfil : (inp :: rest).filter (fun s => s.published)
          = rest.filter (fun s => s.published) := by
        simp [List.filter_cons, hp]
      rw [hlog, hfil]
      exact ⟨hlen, hidx⟩
    · obtain ⟨hlen, hidx⟩ := ih (messageID + 1)
      have hlog : (producer.logFrom messageID (inp :: rest)).filterMap producer.Event.sentPair
          = (producer.generate messageID inp.r,
              producer.publishing { spanContext := inp.span }
                (producer.generate messageID inp.r).ToJSON.1)
            :: (producer.logFrom (messageID + 1) rest).filterMap
                producer.Event.sentPair := by
        simp [producer.logFrom, producer.stepEvent, hp, producer.Event.sentPair]
      have hfil : (inp :: rest).filter (fun s => s.published)
          = inp :: rest.filter (fun s => s.published) := by
        simp [List.filter_cons, hp]
      rw [hlog, hfil]
      refine ⟨by simp only [List.length_cons, hlen], ?_⟩
      intro k s hk
      cases k with
      | zero =>
        simp only [List.getElem?_cons_zero, Option.some.injEq] at hk
        subst hk
        simp
      | succ k' =>
        simp only [List.getElem?_cons_succ] at hk ⊢
        rw [hidx k' s hk]
        have harith : messageID + 1 + (k' : Int) = messageID + ((k' + 1 : Nat) : Int) := by
          push_cast
          ring
        rw [harith]

/-- Formatting is injective on all integers. -/
theorem strconv_FormatInt_injective (i j : Int)
    (h : strconv.FormatInt i = strconv.FormatInt j) : i = j := by
  have hpi := strconv_parseDigits_formatBits (i.natAbs + 1) i.natAbs (by omega)
  have hpj := strconv_parseDigits_formatBits (j.natAbs + 1) j.natAbs (by omega)
  obtain ⟨di, dsi, hei, h0i, hposi, _⟩ :=
    strconv_formatBits_shape (i.natAbs + 1) i.natAbs (by omega)
  obtain ⟨dj, dsj, hej, h0j, hposj, _⟩ :=
    strconv_formatBits_shape (j.natAbs + 1) j.natAbs (by omega)
  have hdi : 0x30 ≤ di := by
    by_cases hz : i.natAbs = 0
    · have := (h0i hz).1
      omega
    · have := hposi (by omega)
      omega
  have hdj : 0x30 ≤ dj := by
    by_cases hz : j.natAbs = 0
    · have := (h0j hz).1
      omega
    · have := hposj (by omega)
      omega
  unfold strconv.FormatInt at h
  by_cases hi : i < 0 <;> by_cases hj : j < 0
  · rw [if_pos hi, if_pos hj] at h
    have ht := List.tail_eq_of_cons_eq h
    rw [ht, hpj] at hpi
    have := Option.some.inj hpi
    omega
  · rw [if_pos hi, if_neg hj, hej] at h
    have := List.head_eq_of_cons_eq h
    omega
  · rw [if_neg hi, if_pos hj, hei] at h
    have := List.head_eq_of_cons_eq h
    omega
  · rw [if_neg hi, if_neg hj] at h
    rw [h, hpj] at hpi
    have := Option.some.inj hpi
    omega

/-- A string of ASCII bytes is valid UTF-8. -/
theorem utf8_validLoop_ascii (s : GoString) (h : ∀ c ∈ s, c < 0x80) :
    ∀ f, utf8.validLoop f s = true ∨ f < s.length := by
  induction s with
  | nil =>
    intro f
    left
    cases f <;> rfl
  | cons c t ih =>
    intro f
    have hc : c < 0x80 := h c (List.mem_cons_self _ _)
    have ht : ∀ d ∈ t, d < 0x80 := fun d hd => h d (List.mem_cons_of_mem _ hd)
    cases f with
    | zero =>
      right
      simp
    | succ f' =>
      rcases ih ht f' with hv | hlt
      · left
        simp only [utf8.validLoop, if_pos hc, hv]
      · right
        simp only [List.length_cons]
        omega

theorem utf8_ValidString_ascii (s : GoString) (h : ∀ c ∈ s, c < 0x80) :
    utf8.ValidString s = true := by
  unfold utf8.ValidString
  rcases utf8_validLoop_ascii s h s.length with hv | hlt
  · exact hv
  · omega

theorem strconv_FormatInt_ascii (i : Int) : ∀ c ∈ strconv.FormatInt i, c < 0x80 := by
  obtain ⟨d, ds, heq, h0, hpos, hds⟩ :=
    strconv_formatBits_shape (i.natAbs + 1) i.natAbs (by omega)
  have hd : d < 0x80 := by
    by_cases hz : i.natAbs = 0
    · have := (h0 hz).1
      omega
    · have := hpos (by omega)
      omega
  have hall : ∀ c ∈ d :: ds, c < 0x80 := by
    intro c hc
    rw [List.mem_cons] at hc
    rcases hc with rfl | hc
    · exact hd
    · have := hds c hc
      omega
  unfold strconv.FormatInt
  split_ifs
  · intro c hc
    rw [List.mem_cons] at hc
    rcases hc with rfl | hc
    · decide
    · rw [heq] at hc
      exact hall c hc
  · rw [heq]
    exact hall

/-! ## Decoding an object into a Message -/

theorem json_saveError_savedError (d : json.decodeState) (e : json.Error) :
    (d.saveError e).savedError ≠ none
      ∧ (d.savedError = none → (d.saveError e).savedError = some e)
      ∧ (∀ e', d.savedError = some e' → (d.saveError e).savedError = some e')
      ∧ (d.saveError e).msg = d.msg := by
  unfold json.decodeState.saveError
  cases h : d.savedError <;> simp [h]

/-- What storing a member value does to the saved error: it stays clear exactly when it
was clear and the field accepts the value; an error that was saved is kept, and a new one
is an `UnmarshalTypeError`. -/
theorem json_store_savedError (d : json.decodeState) (f : json.Field) (v : json.JSON) :
    ((d.store f v).savedError = none ↔ d.savedError = none ∧ f.accepts v = true)
      ∧ (∀ e, d.savedError = some e → (d.store f v).savedError = some e)
      ∧ (d.savedError = none → (d.store f v).savedError = none
          ∨ (d.store f v).savedError = some json.Error.unmarshalType) := by
  have hs := json_saveError_savedError d json.Error.unmarshalType
  obtain ⟨hne, hnone, hsome, _⟩ := hs
  cases v with
  | null =>
    simp only [json.decodeState.store, json.Field.accepts]
    exact ⟨by simp, fun e he => he, fun h => Or.inl h⟩
  | bool b =>
    simp only [json.decodeState.store, json.Field.accepts]
    exact ⟨by simp [hne], hsome, fun h => Or.inr (hnone h)⟩
  | array a =>
    simp only [json.decodeState.store, json.Field.accepts]
    exact ⟨by simp [hne], hsome, fun h => Or.inr (hnone h)⟩
  | object o =>
    simp only [json.decodeState.store, json.Field.accepts]
    exact ⟨by simp [hne], hsome, fun h => Or.inr (hnone h)⟩
  | string s =>
    cases f with
    | ID =>
      simp only [json.decodeState.store, json.Field.accepts]
      exact ⟨by simp, fun e he => he, fun h => Or.inl h⟩
    | Content =>
      simp only [json.decodeState.store, json.Field.accepts]
      exact ⟨by simp, fun e he => he, fun h => Or.inl h⟩
    | WaitTime =>
      simp only [json.decodeState.store, json.Field.accepts]
      exact ⟨by simp [hne], hsome, fun h => Or.inr (hnone h)⟩
  | number lit =>
    cases f with
    | ID =>
      simp only [json.decodeState.store, json.Field.accepts]
      exact ⟨by simp [hne], hsome, fun h => Or.inr (hnone h)⟩
    | Content =>
      simp only [json.decodeState.store, json.Field.accepts]
      exact ⟨by simp [hne], hsome, fun h => Or.inr (hnone h)⟩
    | WaitTime =>
      simp only [json.decodeState.store, json.Field.accepts]
      cases hp : strconv.ParseInt lit with
      | none => exact ⟨by simp [hne], hsome, fun h => Or.inr (hnone h)⟩
      | some n => exact ⟨by simp, fun e he => he, fun h => Or.inl h⟩

/-- Storing into one field leaves the other fields as they are. -/
theorem json_store_other_field (d : json.decodeState) (f g : json.Field) (v : json.JSON)
    (hfg : f ≠ g) :
    (g = json.Field.ID → (d.store f v).msg.ID = d.msg.ID)
      ∧ (g = json.Field.Content → (d.store f v).msg.Content = d.msg.Content)
      ∧ (g = json.Field.WaitTime → (d.store f v).msg.WaitTime = d.msg.WaitTime) := by
  have hs := (json_saveError_savedError d json.Error.unmarshalType).2.2.2
  cases v <;> cases f <;> cases g <;>
    simp_all [json.decodeState.store] <;>
    (cases strconv.ParseInt _ <;> simp_all)

theorem json_member_savedError (d : json.decodeState) (kv : GoString × json.JSON) :
    ((d.member kv).savedError = none ↔
        d.savedError = none ∧ ∀ f, json.findField kv.1 = some f → f.accepts kv.2 = true)
      ∧ (∀ e, d.savedError = some e → (d.member kv).savedError = some e)
      ∧ (d.savedError = none → (d.member kv).savedError = none
          ∨ (d.member kv).savedError = some json.Error.unmarshalType) := by
  unfold json.decodeState.member
  cases hf : json.findField kv.1 with
  | none => exact ⟨by simp, fun e he => he, fun h => Or.inl h⟩
  | some f =>
    obtain ⟨h1, h2, h3⟩ := json_store_savedError d f kv.2
    refine ⟨?_, h2, h3⟩
    simp only [h1, Option.some.injEq, forall_eq']

/-- The saved error after the member loop. -/
theorem json_members_savedError (members : List (GoString × json.JSON))
    (d : json.decodeState) :
    ((members.foldl json.decodeState.member d).savedError = none ↔
        d.savedError = none
          ∧ ∀ kv ∈ members, ∀ f, json.findField kv.1 = some f → f.accepts kv.2 = true)
      ∧ (∀ e, d.savedError = some e →
          (members.foldl json.decodeState.member d).savedError = some e)
      ∧ (d.savedError = none → (members.foldl json.decodeState.member d).savedError = none
          ∨ (members.foldl json.decodeState.member d).savedError
              = some json.Error.unmarshalType) := by
  induction members generalizing d with
  | nil => exact ⟨by simp, fun e he => he, fun h => Or.inl h⟩
  | cons kv t ih =>
    obtain ⟨h1, h2, h3⟩ := json_member_savedError d kv
    obtain ⟨i1, i2, i3⟩ := ih (d.member kv)
    rw [List.foldl_cons]
    refine ⟨?_, ?_, ?_⟩
    · rw [i1, h1]
      simp only [List.mem_cons, forall_eq_or_imp]
      tauto
    · intro e he
      exact i2 e (h2 e he)
    · intro hn
      rcases h3 hn with h | h
      · exact i3 h
      · exact Or.inr (i2 _ h)

/-- A field that no member selects keeps the value it had before the member loop. -/
theorem json_members_absent (members : List (GoString × json.JSON)) (d : json.decodeState)
    (g : json.Field) (habs : g.absentFrom members) :
    (g = json.Field.ID → (members.foldl json.decodeState.member d).msg.ID = d.msg.ID)
      ∧ (g = json.Field.Content →
          (members.foldl json.decodeState.member d).msg.Content = d.msg.Content)
      ∧ (g = json.Field.WaitTime →
          (members.foldl json.decodeState.member d).msg.WaitTime = d.msg.WaitTime) := by
  induction members generalizing d with
  | nil => simp
  | cons kv t ih =>
    have hkv : json.findField kv.1 ≠ some g := habs kv (List.mem_cons_self _ _)
    have ht : g.absentFrom t := fun x hx => habs x (List.mem_cons_of_mem _ hx)
    obtain ⟨i1, i2, i3⟩ := ih (d.member kv) ht
    have hstep : (g = json.Field.ID → (d.member kv).msg.ID = d.msg.ID)
        ∧ (g = json.Field.Content → (d.member kv).msg.Content = d.msg.Content)
        ∧ (g = json.Field.WaitTime → (d.member kv).msg.WaitTime = d.msg.WaitTime) := by
      unfold json.decodeState.member
      cases hf : json.findField kv.1 with
      | none => simp
      | some f =>
        have hfg : f ≠ g := by
          intro h
          exact hkv (by rw [hf, h])
        exact json_store_other_field d f g kv.2 hfg
    rw [List.foldl_cons]
    exact ⟨fun h => (i1 h).trans (hstep.1 h), fun h => (i2 h).trans (hstep.2.1 h),
      fun h => (i3 h).trans (hstep.2.2 h)⟩

theorem strconv_parseDigits_non_digit (s : GoString) (acc : Nat)
    (h : ∃ c ∈ s, ¬ (0x30 ≤ c ∧ c ≤ 0x39)) : strconv.parseDigits s acc = none := by
  induction s generalizing acc with
  | nil => obtain ⟨c, hc, _⟩ := h; simp at hc
  | cons a t ih =>
    unfold strconv.parseDigits
    by_cases ha : 0x30 ≤ a ∧ a ≤ 0x39
    · rw [if_pos ha]
      apply ih
      obtain ⟨c, hc, hcd⟩ := h
      rw [List.mem_cons] at hc
      rcases hc with rfl | hc
      · exact absurd ha hcd
      · exact ⟨c, hc, hcd⟩
    · rw [if_neg ha]

theorem strconv_ParseUint_non_digit (s : GoString)
    (h : ∃ c ∈ s, ¬ (0x30 ≤ c ∧ c ≤ 0x39)) : strconv.ParseUint s = none := by
  cases s with
  | nil => rfl
  | cons a t => simp only [strconv.ParseUint, strconv_parseDigits_non_digit _ 0 h]

/-- A number literal with a fraction or an exponent part is not accepted by
`strconv.ParseInt`. -/
theorem strconv_ParseInt_fraction_or_exponent (lit : GoString)
    (h : lit.any (fun c => decide (c = 0x2E) || decide (c = 0x65) || decide (c = 0x45)) = true) :
    strconv.ParseInt lit = none := by
  rw [List.any_eq_true] at h
  obtain ⟨c, hc, hcd⟩ := h
  simp only [Bool.or_eq_true, decide_eq_true_eq] at hcd
  cases lit with
  | nil => simp at hc
  | cons a t =>
    have hbad : ∃ x ∈ (if a = 0x2B ∨ a = 0x2D then t else a :: t), ¬ (0x30 ≤ x ∧ x ≤ 0x39) := by
      refine ⟨c, ?_, by omega⟩
      split_ifs with hsign
      · rw [List.mem_cons] at hc
        rcases hc with rfl | hc
        · omega
        · exact hc
      · exact hc
    simp only [strconv.ParseInt, strconv_ParseUint_non_digit _ hbad]

theorem json_WaitTime_rejects (v : json.JSON) (h : v.isNonIntegerNonNull = true) :
    json.Field.WaitTime.accepts v = false := by
  cases v with
  | null => simp [json.JSON.isNonIntegerNonNull] at h
  | number lit =>
    simp only [json.JSON.isNonIntegerNonNull] at h
    simp [json.Field.accepts, strconv_ParseInt_fraction_or_exponent lit h]
  | _ => simp [json.Field.accepts]

/-- The results of `FromJSON` on an input that is a JSON object, in terms of the member
loop. -/
theorem message_FromJSON_object (data : GoString) (members : List (GoString × json.JSON))
    (hp : json.parse data = some (json.JSON.object members)) :
    message.FromJSON data
      = match (members.foldl json.decodeState.member
            { msg := message.zero, savedError := none }).savedError with
        | some err => (none, some err)
        | none =>
          (some (members.foldl json.decodeState.member
            { msg := message.zero, savedError := none }).msg, none) := by
  unfold message.FromJSON json.Unmarshal
  simp only [hp]
  cases (members.foldl json.decodeState.member
    { msg := message.zero, savedError := none }).savedError <;> rfl

/-! ## UTF-8 -/

theorem utf8_first_none (s0 : Nat) (h : s0 < 0xC2 ∨ 0xF5 ≤ s0) : utf8.first s0 = none := by
  unfold utf8.first
  by_cases h1 : s0 < 0xC2
  · rw [if_pos h1]
  · rw [if_neg h1, if_neg (by omega), if_neg (by omega), if_neg (by omega), if_neg (by omega),
      if_neg (by omega), if_neg (by omega), if_neg (by omega), if_neg (by omega)]

theorem utf8_first_two (s0 : Nat) (h1 : 0xC2 ≤ s0) (h2 : s0 < 0xE0) :
    utf8.first s0 = some (2, 0x80, 0xBF) := by
  unfold utf8.first
  rw [if_neg (by omega), if_pos h2]

theorem utf8_first_three (s0 : Nat) (h1 : 0xE0 ≤ s0) (h2 : s0 < 0xF0) :
    utf8.first s0
      = some (3, (if s0 = 0xE0 then 0xA0 else 0x80), (if s0 = 0xED then 0x9F else 0xBF)) := by
  unfold utf8.first
  rw [if_neg (by omega), if_neg (by omega)]
  by_cases ha : s0 = 0xE0
  · subst ha
    rfl
  · rw [if_neg ha, if_neg ha]
    by_cases hb : s0 < 0xED
    · rw [if_pos hb, if_neg (by omega)]
    · rw [if_neg hb]
      by_cases hc : s0 = 0xED
      · subst hc
        rfl
      · rw [if_neg hc, if_neg hc, if_pos h2]

theorem utf8_first_four (s0 : Nat) (h1 : 0xF0 ≤ s0) (h2 : s0 < 0xF5) :
    utf8.first s0
      = some (4, (if s0 = 0xF0 then 0x90 else 0x80), (if s0 = 0xF4 then 0x8F else 0xBF)) := by
  unfold utf8.first
  rw [if_neg (by omega), if_neg (by omega), if_neg (by omega), if_neg (by omega),
    if_neg (by omega), if_neg (by omega)]
  by_cases ha : s0 = 0xF0
  · subst ha
    rfl
  · rw [if_neg ha, if_neg ha]
    by_cases hb : s0 < 0xF4
    · rw [if_pos hb, if_neg (by omega)]
    · rw [if_neg hb]
      have hc : s0 = 0xF4 := by omega
      subst hc
      rfl

theorem utf8_first_eq (s0 : Nat) (_h : 0x80 ≤ s0) :
    (utf8.first s0 = none ∧ (s0 < 0xC2 ∨ 0xF5 ≤ s0))
      ∨ (∃ lo hi, utf8.first s0 = some (2, lo, hi) ∧ 0xC2 ≤ s0 ∧ s0 < 0xE0 ∧ lo = 0x80
          ∧ hi = 0xBF)
      ∨ (∃ lo hi, utf8.first s0 = some (3, lo, hi) ∧ 0xE0 ≤ s0 ∧ s0 < 0xF0
          ∧ lo = (if s0 = 0xE0 then 0xA0 else 0x80) ∧ hi = (if s0 = 0xED then 0x9F else 0xBF))
      ∨ (∃ lo hi, utf8.first s0 = some (4, lo, hi) ∧ 0xF0 ≤ s0 ∧ s0 < 0xF5
          ∧ lo = (if s0 = 0xF0 then 0x90 else 0x80) ∧ hi = (if s0 = 0xF4 then 0x8F else 0xBF)) := by
  by_cases h1 : s0 < 0xC2 ∨ 0xF5 ≤ s0
  · exact Or.inl ⟨utf8_first_none s0 h1, h1⟩
  · by_cases h2 : s0 < 0xE0
    · exact Or.inr (Or.inl ⟨_, _, utf8_first_two s0 (by omega) h2, by omega, h2, rfl, rfl⟩)
    · by_cases h3 : s0 < 0xF0
      · exact Or.inr (Or.inr (Or.inl
          ⟨_, _, utf8_first_three s0 (by omega) h3, by omega, h3, rfl, rfl⟩))
      · exact Or.inr (Or.inr (Or.inr
          ⟨_, _, utf8_first_four s0 (by omega) (by omega), by omega, by omega, rfl, rfl⟩))

theorem utf8_DecodeRune_two (s0 s1 : Nat) (x : GoString) (h : utf8.wellFormed2 s0 s1) :
    utf8.DecodeRune (s0 :: s1 :: x) = ((s0 % 32) * 64 + s1 % 64, 2) := by
  obtain ⟨h1, h2, h3, h4⟩ := h
  rcases utf8_first_eq s0 (by omega) with hf | ⟨lo, hi, hf, -, -, rfl, rfl⟩
    | ⟨lo, hi, hf, _, _, _, _⟩ | ⟨lo, hi, hf, _, _, _, _⟩
  · omega
  · simp only [utf8.DecodeRune, hf]
    rw [if_neg (by omega), if_neg (by omega), if_pos (by omega)]
  · omega
  · omega

theorem utf8_DecodeRune_three (s0 s1 s2 : Nat) (x : GoString)
    (h : utf8.wellFormed3 s0 s1 s2) :
    utf8.DecodeRune (s0 :: s1 :: s2 :: x)
      = ((s0 % 16) * 4096 + (s1 % 64) * 64 + s2 % 64, 3) := by
  obtain ⟨h1, h2, h3, h4, h5, h6, h7, h8⟩ := h
  rcases utf8_first_eq s0 (by omega) with hf | ⟨lo, hi, hf, _, _, _, _⟩
    | ⟨lo, hi, hf, -, -, rfl, rfl⟩ | ⟨lo, hi, hf, _, _, _, _⟩
  · omega
  · omega
  · simp only [utf8.DecodeRune, hf, utf8.isCont]
    rw [if_neg (by omega), if_neg (by split_ifs <;> omega), if_neg (by omega),
      if_neg (by simp; omega), if_pos (by omega)]
  · omega

theorem utf8_DecodeRune_four (s0 s1 s2 s3 : Nat) (x : GoString)
    (h : utf8.wellFormed4 s0 s1 s2 s3) :
    utf8.DecodeRune (s0 :: s1 :: s2 :: s3 :: x)
      = ((s0 % 8) * 262144 + (s1 % 64) * 4096 + (s2 % 64) * 64 + s3 % 64, 4) := by
  obtain ⟨h1, h2, h3, h4, h5, h6, h7, h8, h9, h10⟩ := h
  rcases utf8_first_eq s0 (by omega) with hf | ⟨lo, hi, hf, _, _, _, _⟩
    | ⟨lo, hi, hf, _, _, _, _⟩ | ⟨lo, hi, hf, -, -, rfl, rfl⟩
  · omega
  · omega
  · omega
  · simp only [utf8.DecodeRune, hf, utf8.isCont]
    rw [if_neg (by omega), if_neg (by split_ifs <;> omega), if_neg (by omega),
      if_neg (by simp; omega), if_neg (by omega), if_neg (by simp; omega)]

/-- Either `DecodeRune` reports an invalid encoding, or the input starts with a
well-formed sequence of two, three or four bytes. -/
theorem utf8_DecodeRune_cases (s0 : Nat) (t : GoString) (h : 0x80 ≤ s0) :
    utf8.DecodeRune (s0 :: t) = (utf8.RuneError, 1)
      ∨ (∃ s1 x, t = s1 :: x ∧ utf8.wellFormed2 s0 s1)
      ∨ (∃ s1 s2 x, t = s1 :: s2 :: x ∧ utf8.wellFormed3 s0 s1 s2)
      ∨ (∃ s1 s2 s3 x, t = s1 :: s2 :: s3 :: x ∧ utf8.wellFormed4 s0 s1 s2 s3) := by
  rcases utf8_first_eq s0 h with ⟨hf, _⟩ | ⟨lo, hi, hf, h1, h2, rfl, rfl⟩
    | ⟨lo, hi, hf, h1, h2, rfl, rfl⟩ | ⟨lo, hi, hf, h1, h2, rfl, rfl⟩
  · left
    simp only [utf8.DecodeRune, hf]
    rw [if_neg (by omega)]
  · cases t with
    | nil =>
      left
      simp only [utf8.DecodeRune, hf]
      rw [if_neg (by omega)]
    | cons s1 x =>
      by_cases hr : s1 < 0x80 ∨ 0xBF < s1
      · left
        simp only [utf8.DecodeRune, hf]
        rw [if_neg (by omega), if_pos hr]
      · right; left
        exact ⟨s1, x, rfl, by unfold utf8.wellFormed2; omega⟩
  · cases t with
    | nil =>
      left
      simp only [utf8.DecodeRune, hf]
      rw [if_neg (by omega)]
    | cons s1 x =>
      by_cases hr : s1 < (if s0 = 0xE0 then 0xA0 else 0x80) ∨ (if s0 = 0xED then 0x9F else 0xBF) < s1
      · left
        simp only [utf8.DecodeRune, hf]
        rw [if_neg (by omega), if_pos hr]
      · cases x with
        | nil =>
          left
          simp only [utf8.DecodeRune, hf]
          rw [if_neg (by omega), if_neg hr, if_neg (by omega)]
        | cons s2 y =>
          by_cases hc : utf8.isCont s2 = false
          · left
            simp only [utf8.DecodeRune, hf]
            rw [if_neg (by omega), if_neg hr, if_neg (by omega), if_pos hc]
          · right; right; left
            refine ⟨s1, s2, y, rfl, ?_⟩
            unfold utf8.isCont at hc
            simp at hc
            unfold utf8.wellFormed3
            split_ifs at hr <;> omega
  · cases t with
    | nil =>
      left
      simp only [utf8.DecodeRune, hf]
      rw [if_neg (by omega)]
    | cons s1 x =>
      by_cases hr : s1 < (if s0 = 0xF0 then 0x90 else 0x80) ∨ (if s0 = 0xF4 then 0x8F else 0xBF) < s1
      · left
        simp only [utf8.DecodeRune, hf]
        rw [if_neg (by omega), if_pos hr]
      · cases x with
        | nil =>
          left
          simp only [utf8.DecodeRune, hf]
          rw [if_neg (by omega), if_neg hr, if_neg (by omega)]
        | cons s2 y =>
          by_cases hc : utf8.isCont s2 = false
          · left
            simp only [utf8.DecodeRune, hf]
            rw [if_neg (by omega), if_neg hr, if_neg (by omega), if_pos hc]
          · cases y with
            | nil =>
              left
              simp only [utf8.DecodeRune, hf]
              rw [if_neg (by omega), if_neg hr, if_neg (by omega), if_neg hc,
                if_neg (by omega)]
            | cons s3 z =>
              by_cases hc3 : utf8.isCont s3 = false
              · left
                simp only [utf8.DecodeRune, hf]
                rw [if_neg (by omega), if_neg hr, if_neg (by omega), if_neg hc,
                  if_neg (by omega), if_pos hc3]
              · right; right; right
                refine ⟨s1, s2, s3, z, rfl, ?_⟩
                unfold utf8.isCont at hc hc3
                simp at hc hc3
                unfold utf8.wellFormed4
                split_ifs at hr <;> omega

theorem utf8_EncodeRune_two (s0 s1 : Nat) (h : utf8.wellFormed2 s0 s1) :
    utf8.EncodeRune ((s0 % 32) * 64 + s1 % 64) = [s0, s1] := by
  obtain ⟨h1, h2, h3, h4⟩ := h
  unfold utf8.EncodeRune
  rw [if_neg (by omega), if_pos (by omega)]
  congr 1
  · omega
  · congr 1
    omega

theorem utf8_EncodeRune_three (s0 s1 s2 : Nat) (h : utf8.wellFormed3 s0 s1 s2) :
    utf8.EncodeRune ((s0 % 16) * 4096 + (s1 % 64) * 64 + s2 % 64) = [s0, s1, s2] := by
  obtain ⟨h1, h2, h3, h4, h5, h6, h7, h8⟩ := h
  unfold utf8.EncodeRune
  rw [if_neg (by omega), if_neg (by omega), if_neg (by omega), if_pos (by omega)]
  congr 1
  · omega
  · congr 1
    · omega
    · congr 1
      omega

theorem utf8_EncodeRune_four (s0 s1 s2 s3 : Nat) (h : utf8.wellFormed4 s0 s1 s2 s3) :
    utf8.EncodeRune ((s0 % 8) * 262144 + (s1 % 64) * 4096 + (s2 % 64) * 64 + s3 % 64)
      = [s0, s1, s2, s3] := by
  obtain ⟨h1, h2, h3, h4, h5, h6, h7, h8, h9, h10⟩ := h
  unfold utf8.EncodeRune
  rw [if_neg (by omega), if_neg (by omega), if_neg (by omega), if_neg (by omega)]
  congr 1
  · omega
  · congr 1
    · omega
    · congr 1
      · omega
      · congr 1
        omega

/-- A valid encoded rune at the head of a string: the bytes it occupies, what `DecodeRune`
returns for them whatever follows, and that `EncodeRune` gives the same bytes back. -/
theorem utf8_valid_rune (b : Nat) (t : GoString) (hb : 0x80 ≤ b)
    (hv : ¬ ((utf8.DecodeRune (b :: t)).1 = utf8.RuneError ∧ (utf8.DecodeRune (b :: t)).2 = 1)) :
    ∃ pt x, t = pt ++ x
      ∧ (∀ y, utf8.DecodeRune (b :: (pt ++ y))
          = ((utf8.DecodeRune (b :: t)).1, pt.length + 1))
      ∧ utf8.EncodeRune (utf8.DecodeRune (b :: t)).1 = b :: pt
      ∧ 0x80 ≤ (utf8.DecodeRune (b :: t)).1 := by
  rcases utf8_DecodeRune_cases b t hb with h | ⟨s1, x, rfl, hw⟩ | ⟨s1, s2, x, rfl, hw⟩
    | ⟨s1, s2, s3, x, rfl, hw⟩
  · rw [h] at hv
    exact absurd ⟨rfl, rfl⟩ hv
  · refine ⟨[s1], x, rfl, ?_, ?_, ?_⟩
    · intro y
      rw [utf8_DecodeRune_two b s1 x hw]
      exact utf8_DecodeRune_two b s1 y hw
    · rw [utf8_DecodeRune_two b s1 x hw]
      exact utf8_EncodeRune_two b s1 hw
    · rw [utf8_DecodeRune_two b s1 x hw]
      obtain ⟨h1, h2, h3, h4⟩ := hw
      show 0x80 ≤ (b % 32) * 64 + s1 % 64
      omega
  · refine ⟨[s1, s2], x, rfl, ?_, ?_, ?_⟩
    · intro y
      rw [utf8_DecodeRune_three b s1 s2 x hw]
      exact utf8_DecodeRune_three b s1 s2 y hw
    · rw [utf8_DecodeRune_three b s1 s2 x hw]
      exact utf8_EncodeRune_three b s1 s2 hw
    · rw [utf8_DecodeRune_three b s1 s2 x hw]
      obtain ⟨h1, h2, h3, h4, h5, h6, h7, h8⟩ := hw
      show 0x80 ≤ (b % 16) * 4096 + (s1 % 64) * 64 + s2 % 64
      omega
  · refine ⟨[s1, s2, s3], x, rfl, ?_, ?_, ?_⟩
    · intro y
      rw [utf8_DecodeRune_four b s1 s2 s3 x hw]
      exact utf8_DecodeRune_four b s1 s2 s3 y hw
    · rw [utf8_DecodeRune_four b s1 s2 s3 x hw]
      exact utf8_EncodeRune_four b s1 s2 s3 hw
    · rw [utf8_DecodeRune_four b s1 s2 s3 x hw]
      obtain ⟨h1, h2, h3, h4, h5, h6, h7, h8, h9, h10⟩ := hw
      show 0x80 ≤ (b % 8) * 262144 + (s1 % 64) * 4096 + (s2 % 64) * 64 + s3 % 64
      omega

/-! ## String literals: unquoting what appendString wrote -/

theorem json_hexVal_hex (n : Nat) (h : n < 16) : json.hexVal (json.hex n) = some n := by
  unfold json.hexVal json.hex
  by_cases h10 : n < 10
  · rw [if_pos h10, if_pos (by omega)]
    congr 1
    omega
  · rw [if_neg h10, if_neg (by omega), if_pos (by omega)]
    congr 1
    omega

theorem json_unquoteLoop_quote (f : Nat) (x : GoString) :
    json.unquoteLoop (f + 1) (0x22 :: x) = some ([], x) := by
  simp [json.unquoteLoop]

theorem json_unquoteLoop_plain (f c : Nat) (x : GoString) (h1 : c ≠ 0x22) (h2 : c ≠ 0x5C)
    (h3 : 0x20 ≤ c) (h4 : c < 0x80) :
    json.unquoteLoop (f + 1) (c :: x)
      = (json.unquoteLoop f x).map (fun r => (c :: r.1, r.2)) := by
  simp only [json.unquoteLoop]
  rw [if_neg h1, if_neg h2, if_neg (by omega), if_pos h4]

theorem json_unquoteLoop_escape (f e b : Nat) (x : GoString) (h1 : e ≠ 0x75)
    (h2 : json.simpleEscape e = some b) :
    json.unquoteLoop (f + 1) (0x5C :: e :: x)
      = (json.unquoteLoop f x).map (fun r => (b :: r.1, r.2)) := by
  simp [json.unquoteLoop, h1, h2]

theorem json_unquoteLoop_u4 (f a b c d rr : Nat) (x : GoString)
    (h1 : json.getu4 (0x5C :: 0x75 :: a :: b :: c :: d :: x) = some rr)
    (h2 : utf16.IsSurrogate rr = false) :
    json.unquoteLoop (f + 1) (0x5C :: 0x75 :: a :: b :: c :: d :: x)
      = (json.unquoteLoop f x).map (fun r => (utf8.EncodeRune rr ++ r.1, r.2)) := by
  simp [json.unquoteLoop, h1, h2]

theorem json_unquoteLoop_rune (f c : Nat) (x : GoString) (h : 0x80 ≤ c) :
    json.unquoteLoop (f + 1) (c :: x)
      = (json.unquoteLoop f ((c :: x).drop (utf8.DecodeRune (c :: x)).2)).map
          (fun r => (utf8.EncodeRune (utf8.DecodeRune (c :: x)).1 ++ r.1, r.2)) := by
  simp only [json.unquoteLoop]
  rw [if_neg (by omega), if_neg (by omega), if_neg (by omega), if_neg (by omega)]

/-- The escape `appendString` writes for an ASCII byte outside `htmlSafeSet` is unquoted
to that byte. -/
theorem json_unquoteLoop_escapeByte (f b : Nat) (x : GoString) (h1 : b < 0x80)
    (h2 : json.htmlSafeSet b = false) :
    json.unquoteLoop (f + 1) (json.escapeByte b ++ x)
      = (json.unquoteLoop f x).map (fun r => (b :: r.1, r.2)) := by
  unfold json.escapeByte
  by_cases hq : b = 0x5C ∨ b = 0x22
  · rw [if_pos hq]
    exact json_unquoteLoop_escape f b b x (by omega)
      (by unfold json.simpleEscape; rw [if_pos (by omega)])
  · rw [if_neg hq]
    by_cases h08 : b = 0x08
    · subst h08; exact json_unquoteLoop_escape f 0x62 0x08 x (by decide) (by decide)
    · rw [if_neg h08]
      by_cases h0C : b = 0x0C
      · subst h0C; exact json_unquoteLoop_escape f 0x66 0x0C x (by decide) (by decide)
      · rw [if_neg h0C]
        by_cases h0A : b = 0x0A
        · subst h0A; exact json_unquoteLoop_escape f 0x6E 0x0A x (by decide) (by decide)
        · rw [if_neg h0A]
          by_cases h0D : b = 0x0D
          · subst h0D; exact json_unquoteLoop_escape f 0x72 0x0D x (by decide) (by decide)
          · rw [if_neg h0D]
            by_cases h09 : b = 0x09
            · subst h09; exact json_unquoteLoop_escape f 0x74 0x09 x (by decide) (by decide)
            · rw [if_neg h09]
              have hg : json.getu4
                  (0x5C :: 0x75 :: 0x30 :: 0x30 :: json.hex (b / 16) :: json.hex (b % 16) :: x)
                  = some b := by
                simp only [json.getu4]
                rw [json_hexVal_hex _ (by omega), json_hexVal_hex _ (by omega)]
                have h0 : json.hexVal 0x30 = some 0 := by decide
                simp only [h0, Option.some.injEq]
                omega
              have hs : utf16.IsSurrogate b = false := by
                unfold utf16.IsSurrogate
                simp
                omega
              have he : utf8.EncodeRune b = [b] := by
                unfold utf8.EncodeRune
                rw [if_pos (by omega)]
              have := json_unquoteLoop_u4 f 0x30 0x30 (json.hex (b / 16)) (json.hex (b % 16))
                b x hg hs
              rw [he] at this
              exact this

theorem json_htmlSafeSet_plain (b : Nat) (h : json.htmlSafeSet b = true) :
    b ≠ 0x22 ∧ b ≠ 0x5C ∧ 0x20 ≤ b ∧ b < 0x80 := by
  unfold json.htmlSafeSet at h
  simp only [Bool.and_eq_true, decide_eq_true_eq] at h
  omega

/-- Unquoting reads back what `appendString` wrote between the quotes, for a string that
is valid UTF-8, whatever follows the closing quote. -/
theorem json_unquoteLoop_appendStringLoop (fuel : Nat) :
    ∀ (s rest : GoString) (f : Nat), s.length ≤ fuel → utf8.validLoop fuel s = true →
      (json.appendStringLoop fuel s).length + rest.length + 1 ≤ f →
      json.unquoteLoop f (json.appendStringLoop fuel s ++ 0x22 :: rest) = some (s, rest) := by
  induction fuel with
  | zero =>
    intro s rest f hl _ hf
    have hs : s = [] := List.length_eq_zero.mp (by omega)
    subst hs
    obtain ⟨f', rfl⟩ : ∃ f', f = f' + 1 := ⟨f - 1, by omega⟩
    exact json_unquoteLoop_quote f' rest
  | succ fuel ih =>
    intro s rest f hl hv hf
    obtain ⟨f', rfl⟩ : ∃ f', f = f' + 1 := ⟨f - 1, by omega⟩
    cases s with
    | nil => exact json_unquoteLoop_quote f' rest
    | cons b t =>
      simp only [List.length_cons] at hl
      by_cases hb : b < 0x80
      · simp only [utf8.validLoop, if_pos hb] at hv
        simp only [json.appendStringLoop, if_pos hb] at hf ⊢
        by_cases hsafe : json.htmlSafeSet b = true
        · rw [if_pos hsafe] at hf ⊢
          obtain ⟨p1, p2, p3, p4⟩ := json_htmlSafeSet_plain b hsafe
          simp only [List.length_cons] at hf
          rw [List.cons_append, json_unquoteLoop_plain f' b _ p1 p2 p3 p4,
            ih t rest f' (by omega) hv (by omega)]
          rfl
        · rw [if_neg hsafe] at hf ⊢
          have hlen : 1 ≤ (json.escapeByte b).length := by
            unfold json.escapeByte
            split_ifs <;> simp
          rw [List.length_append] at hf
          rw [List.append_assoc,
            json_unquoteLoop_escapeByte f' b _ hb (by simpa using hsafe),
            ih t rest f' (by omega) hv (by omega)]
          rfl
      · have hb' : 0x80 ≤ b := by omega
        simp only [utf8.validLoop, if_neg hb] at hv
        by_cases hbad : (utf8.DecodeRune (b :: t)).1 = utf8.RuneError
            ∧ (utf8.DecodeRune (b :: t)).2 = 1
        · rw [if_pos hbad] at hv
          cases hv
        · rw [if_neg hbad] at hv
          obtain ⟨pt, x, rfl, hdec, henc, hge⟩ := utf8_valid_rune b t hb' hbad
          have hd2 : (utf8.DecodeRune (b :: (pt ++ x))).2 = pt.length + 1 := by
            rw [hdec x]
          have hdrop : (b :: (pt ++ x)).drop (pt.length + 1) = x := by
            simp
          have htake : (b :: (pt ++ x)).take (pt.length + 1) = b :: pt := by
            simp
          rw [hd2, hdrop] at hv
          simp only [List.length_append] at hl
          have hbad' : ¬ ((utf8.DecodeRune (b :: (pt ++ x))).1 = utf8.RuneError
              ∧ pt.length + 1 = 1) := by
            rw [hd2] at hbad
            exact hbad
          simp only [json.appendStringLoop, if_neg hb, hd2, if_neg hbad', hdrop, htake] at hf ⊢
          by_cases hsep : (utf8.DecodeRune (b :: (pt ++ x))).1 = 0x2028
              ∨ (utf8.DecodeRune (b :: (pt ++ x))).1 = 0x2029
          · rw [if_pos hsep] at hf ⊢
            have hg : json.getu4
                (0x5C :: 0x75 :: 0x32 :: 0x30 :: 0x32
                  :: json.hex ((utf8.DecodeRune (b :: (pt ++ x))).1 % 16)
                  :: (json.appendStringLoop fuel x ++ 0x22 :: rest))
                = some (utf8.DecodeRune (b :: (pt ++ x))).1 := by
              rcases hsep with h | h <;> rw [h] <;> rfl
            have hs : utf16.IsSurrogate (utf8.DecodeRune (b :: (pt ++ x))).1 = false := by
              rcases hsep with h | h <;> rw [h] <;> rfl
            simp only [List.length_append, List.length_cons, List.length_nil] at hf
            rw [List.append_assoc]
            simp only [List.cons_append, List.nil_append]
            rw [json_unquoteLoop_u4 f' _ _ _ _ _ _ hg hs,
              ih x rest f' (by omega) hv (by omega), henc]
            rfl
          · rw [if_neg hsep] at hf ⊢
            simp only [List.length_append, List.length_cons] at hf
            simp only [List.append_assoc, List.cons_append]
            rw [json_unquoteLoop_rune f' b _ hb', hdec]
            simp only [List.drop_succ_cons]
            rw [List.drop_left' rfl, ih x rest f' (by omega) hv (by omega), henc]
            rfl

/-- Scanning a string literal reads back the string `appendString` quoted. -/
theorem json_scanString_appendString (s rest : GoString) (hv : utf8.ValidString s = true) :
    json.scanString (json.appendStringLoop s.length s ++ 0x22 :: rest) = some (s, rest) := by
  unfold json.scanString
  apply json_unquoteLoop_appendStringLoop s.length s rest _ (le_refl _) hv
  simp only [List.length_append, List.length_cons]
  omega

/-! ## Number literals and the object the encoder writes -/

theorem json_spanDigits_digits (ds rest : GoString) (h : ∀ c ∈ ds, 0x30 ≤ c ∧ c ≤ 0x39) :
    json.spanDigits (ds ++ 0x7D :: rest) = (ds, 0x7D :: rest) := by
  induction ds with
  | nil => simp [json.spanDigits, json.isDigit]
  | cons c t ih =>
    have hc := h c (List.mem_cons_self _ _)
    have ht : ∀ d ∈ t, 0x30 ≤ d ∧ d ≤ 0x39 := fun d hd => h d (List.mem_cons_of_mem _ hd)
    have hd : json.isDigit c = true := by
      unfold json.isDigit
      simp
      omega
    show json.spanDigits (c :: (t ++ 0x7D :: rest)) = (c :: t, 0x7D :: rest)
    rw [json.spanDigits, if_pos hd, ih ht]

theorem json_scanFrac_brace (lit rest : GoString) :
    json.scanFrac lit (0x7D :: rest) = some (lit, 0x7D :: rest) := by
  simp [json.scanFrac, json.scanExp]

/-- Scanning a number reads the text `FormatInt` wrote, up to the closing brace. -/
theorem json_scanNumber_FormatInt (w : Int) (rest : GoString) :
    json.scanNumber (strconv.FormatInt w ++ 0x7D :: rest)
        = some (strconv.FormatInt w, 0x7D :: rest)
      ∧ ∃ c cs, strconv.FormatInt w = c :: cs ∧ (c = 0x2D ∨ (0x30 ≤ c ∧ c ≤ 0x39)) := by
  obtain ⟨d, ds, heq, h0, hpos, hds⟩ :=
    strconv_formatBits_shape (w.natAbs + 1) w.natAbs (by omega)
  have hint : ∀ lit : GoString,
      json.scanInt lit (d :: ds ++ 0x7D :: rest) = some (lit ++ d :: ds, 0x7D :: rest) := by
    intro lit
    by_cases hz : w.natAbs = 0
    · obtain ⟨rfl, rfl⟩ := h0 hz
      simp [json.scanInt, json_scanFrac_brace]
    · have hd := hpos (by omega)
      simp only [List.cons_append, json.scanInt]
      rw [if_neg (by omega), if_pos hd, json_spanDigits_digits ds rest hds]
      exact json_scanFrac_brace _ _
  unfold strconv.FormatInt
  by_cases hneg : w < 0
  · rw [if_pos hneg, heq]
    refine ⟨?_, 0x2D, d :: ds, rfl, Or.inl rfl⟩
    simp only [List.cons_append, json.scanNumber]
    have := hint [0x2D]
    simp only [List.cons_append, List.nil_append] at this
    exact this
  · rw [if_neg hneg, heq]
    have hd : 0x30 ≤ d ∧ d ≤ 0x39 := by
      by_cases hz : w.natAbs = 0
      · have := (h0 hz).1
        omega
      · have := hpos (by omega)
        omega
    refine ⟨?_, d, ds, rfl, Or.inr hd⟩
    have := hint []
    simp only [List.nil_append] at this
    rw [← this]
    unfold json.scanNumber
    split
    · rename_i t heq2
      simp only [List.cons_append, List.cons.injEq] at heq2
      omega
    · rfl

theorem json_parseValue_object (f depth : Nat) (t : GoString)
    (hd : depth + 1 ≤ json.maxNestingDepth) :
    json.parseValue (f + 1) depth (0x7B :: 0x22 :: t)
      = (json.parseMembers f (depth + 1) (0x22 :: t)).map
          (fun p => (json.JSON.object p.1, p.2)) := by
  rw [json.parseValue]
  simp only [if_true]
  rw [if_neg (by omega)]
  simp [json.skipSpace, json.isSpace]

theorem json_parseValue_string (f depth : Nat) (t : GoString) :
    json.parseValue (f + 1) depth (0x22 :: t)
      = (json.scanString t).map (fun p => (json.JSON.string p.1, p.2)) := by
  rw [json.parseValue]
  simp

theorem json_parseValue_number (f depth c : Nat) (t : GoString)
    (hc : c = 0x2D ∨ (0x30 ≤ c ∧ c ≤ 0x39)) :
    json.parseValue (f + 1) depth (c :: t)
      = (json.scanNumber (c :: t)).map (fun p => (json.JSON.number p.1, p.2)) := by
  rw [json.parseValue]
  have h1 : c ≠ 0x7B := by omega
  have h2 : c ≠ 0x5B := by omega
  have h3 : c ≠ 0x22 := by omega
  have h4 : c = 0x2D ∨ json.isDigit c = true := by
    rcases hc with h | h
    · exact Or.inl h
    · right
      unfold json.isDigit
      simp
      omega
  simp only [if_neg h1, if_neg h2, if_neg h3, if_pos h4]

theorem json_parseMembers_more (f depth : Nat) (t r1 r3 key : GoString) (v : json.JSON)
    (hk : json.scanString t = some (key, 0x3A :: r1)) (hs : json.skipSpace r1 = r1)
    (hv : json.parseValue f depth r1 = some (v, 0x2C :: 0x22 :: r3)) :
    json.parseMembers (f + 1) depth (0x22 :: t)
      = (json.parseMembers f depth (0x22 :: r3)).map (fun p => ((key, v) :: p.1, p.2)) := by
  rw [json.parseMembers]
  simp [hk, json.skipSpace, json.isSpace, hs, hv]

theorem json_parseMembers_last (f depth : Nat) (t r1 r3 key : GoString) (v : json.JSON)
    (hk : json.scanString t = some (key, 0x3A :: r1)) (hs : json.skipSpace r1 = r1)
    (hv : json.parseValue f depth r1 = some (v, 0x7D :: r3)) :
    json.parseMembers (f + 1) depth (0x22 :: t) = some ([(key, v)], r3) := by
  rw [json.parseMembers]
  simp [hk, json.skipSpace, json.isSpace, hs, hv]

theorem json_skipSpace_FormatInt (w : Int) (rest : GoString) :
    json.skipSpace (strconv.FormatInt w ++ rest) = strconv.FormatInt w ++ rest := by
  obtain ⟨c, cs, heq, hc⟩ := (json_scanNumber_FormatInt w []).2
  rw [heq, List.cons_append, json.skipSpace]
  have : json.isSpace c = false := by
    unfold json.isSpace
    simp
    omega
  simp [this]

/-- The parser reads the text `Marshal` writes for a message with valid UTF-8 strings as
the object of its three members. -/
theorem json_parse_Marshal (m : message.Message) (hid : utf8.ValidString m.ID = true)
    (hct : utf8.ValidString m.Content = true) :
    json.parse (json.Marshal m).1
      = some (json.JSON.object
          [(json.Field.ID.name, json.JSON.string m.ID),
            (json.Field.Content.name, json.JSON.string m.Content),
            (json.Field.WaitTime.name, json.JSON.number (strconv.FormatInt m.WaitTime))]) := by
  -- the three members, last to first, with any fuel
  have hnum : ∀ f, json.parseValue (f + 1) 1 (strconv.FormatInt m.WaitTime ++ [0x7D])
      = some (json.JSON.number (strconv.FormatInt m.WaitTime), [0x7D]) := by
    intro f
    obtain ⟨hscan, c, cs, heq, hc⟩ := json_scanNumber_FormatInt m.WaitTime []
    have h := json_parseValue_number f 1 c (cs ++ [0x7D]) hc
    rw [← List.cons_append, ← heq, hscan] at h
    exact h
  have hkey3 : ∀ r, json.scanString
      (0x77 :: 0x61 :: 0x69 :: 0x74 :: 0x5F :: 0x74 :: 0x69 :: 0x6D :: 0x65 :: 0x22 :: r)
      = some (json.Field.WaitTime.name, r) := fun r =>
    json_scanString_appendString json.Field.WaitTime.name r (by decide)
  have hkey2 : ∀ r, json.scanString
      (0x63 :: 0x6F :: 0x6E :: 0x74 :: 0x65 :: 0x6E :: 0x74 :: 0x22 :: r)
      = some (json.Field.Content.name, r) := fun r =>
    json_scanString_appendString json.Field.Content.name r (by decide)
  have hkey1 : ∀ r, json.scanString (0x69 :: 0x64 :: 0x22 :: r)
      = some (json.Field.ID.name, r) := fun r =>
    json_scanString_appendString json.Field.ID.name r (by decide)
  have hm3 : ∀ f, json.parseMembers (f + 2) 1
      (0x22 :: 0x77 :: 0x61 :: 0x69 :: 0x74 :: 0x5F :: 0x74 :: 0x69 :: 0x6D :: 0x65 :: 0x22
        :: 0x3A :: (strconv.FormatInt m.WaitTime ++ [0x7D]))
      = some ([(json.Field.WaitTime.name,
          json.JSON.number (strconv.FormatInt m.WaitTime))], []) := fun f =>
    json_parseMembers_last (f + 1) 1 _ _ [] _ _ (hkey3 _)
      (json_skipSpace_FormatInt _ _) (hnum f)
  have hm2 : ∀ f, json.parseMembers (f + 3) 1
      (0x22 :: 0x63 :: 0x6F :: 0x6E :: 0x74 :: 0x65 :: 0x6E :: 0x74 :: 0x22 :: 0x3A :: 0x22
        :: (json.appendStringLoop m.Content.length m.Content
          ++ 0x22 :: 0x2C :: 0x22 :: 0x77 :: 0x61 :: 0x69 :: 0x74 :: 0x5F :: 0x74 :: 0x69
            :: 0x6D :: 0x65 :: 0x22 :: 0x3A :: (strconv.FormatInt m.WaitTime ++ [0x7D])))
      = some ([(json.Field.Content.name, json.JSON.string m.Content),
          (json.Field.WaitTime.name,
            json.JSON.number (strconv.FormatInt m.WaitTime))], []) := by
    intro f
    rw [json_parseMembers_more (f + 2) 1 _ _ _ json.Field.Content.name
      (json.JSON.string m.Content) (hkey2 _) (by simp [json.skipSpace, json.isSpace])
      (by rw [json_parseValue_string, json_scanString_appendString _ _ hct]; rfl),
      hm3 f]
    rfl
  have hm1 : ∀ f, json.parseMembers (f + 4) 1
      (0x22 :: 0x69 :: 0x64 :: 0x22 :: 0x3A :: 0x22
        :: (json.appendStringLoop m.ID.length m.ID
          ++ 0x22 :: 0x2C :: 0x22 :: 0x63 :: 0x6F :: 0x6E :: 0x74 :: 0x65 :: 0x6E :: 0x74
            :: 0x22 :: 0x3A :: 0x22
            :: (json.appendStringLoop m.Content.length m.Content
              ++ 0x22 :: 0x2C :: 0x22 :: 0x77 :: 0x61 :: 0x69 :: 0x74 :: 0x5F :: 0x74 :: 0x69
                :: 0x6D :: 0x65 :: 0x22 :: 0x3A
                :: (strconv.FormatInt m.WaitTime ++ [0x7D]))))
      = some ([(json.Field.ID.name, json.JSON.string m.ID),
          (json.Field.Content.name, json.JSON.string m.Content),
          (json.Field.WaitTime.name,
            json.JSON.number (strconv.FormatInt m.WaitTime))], []) := by
    intro f
    rw [json_parseMembers_more (f + 3) 1 _ _ _ json.Field.ID.name
      (json.JSON.string m.ID) (hkey1 _) (by simp [json.skipSpace, json.isSpace])
      (by rw [json_parseValue_string, json_scanString_appendString _ _ hid]; rfl),
      hm2 f]
    rfl
  have hdata : (json.Marshal m).1
      = 0x7B :: 0x22 :: 0x69 :: 0x64 :: 0x22 :: 0x3A :: 0x22
        :: (json.appendStringLoop m.ID.length m.ID
          ++ 0x22 :: 0x2C :: 0x22 :: 0x63 :: 0x6F :: 0x6E :: 0x74 :: 0x65 :: 0x6E :: 0x74
            :: 0x22 :: 0x3A :: 0x22
            :: (json.appendStringLoop m.Content.length m.Content
              ++ 0x22 :: 0x2C :: 0x22 :: 0x77 :: 0x61 :: 0x69 :: 0x74 :: 0x5F :: 0x74 :: 0x69
                :: 0x6D :: 0x65 :: 0x22 :: 0x3A
                :: (strconv.FormatInt m.WaitTime ++ [0x7D]))) := by
    simp [json.Marshal, json.appendString]
  rw [hdata]
  unfold json.parse
  obtain ⟨f, hf⟩ : ∃ f, 2 * (0x7B :: 0x22 :: 0x69 :: 0x64 :: 0x22 :: 0x3A :: 0x22
        :: (json.appendStringLoop m.ID.length m.ID
          ++ 0x22 :: 0x2C :: 0x22 :: 0x63 :: 0x6F :: 0x6E :: 0x74 :: 0x65 :: 0x6E :: 0x74
            :: 0x22 :: 0x3A :: 0x22
            :: (json.appendStringLoop m.Content.length m.Content
              ++ 0x22 :: 0x2C :: 0x22 :: 0x77 :: 0x61 :: 0x69 :: 0x74 :: 0x5F :: 0x74 :: 0x69
                :: 0x6D :: 0x65 :: 0x22 :: 0x3A
                :: (strconv.FormatInt m.WaitTime ++ [0x7D])))).length + 2 = f + 5 := by
    refine ⟨2 * (0x7B :: 0x22 :: 0x69 :: 0x64 :: 0x22 :: 0x3A :: 0x22
        :: (json.appendStringLoop m.ID.length m.ID
          ++ 0x22 :: 0x2C :: 0x22 :: 0x63 :: 0x6F :: 0x6E :: 0x74 :: 0x65 :: 0x6E :: 0x74
            :: 0x22 :: 0x3A :: 0x22
            :: (json.appendStringLoop m.Content.length m.Content
              ++ 0x22 :: 0x2C :: 0x22 :: 0x77 :: 0x61 :: 0x69 :: 0x74 :: 0x5F :: 0x74 :: 0x69
                :: 0x6D :: 0x65 :: 0x22 :: 0x3A
                :: (strconv.FormatInt m.WaitTime ++ [0x7D])))).length + 2 - 5, ?_⟩
    simp only [List.length_cons]
    omega
  rw [hf]
  have hskip : ∀ t : GoString, json.skipSpace (0x7B :: t) = 0x7B :: t := by
    intro t
    simp [json.skipSpace, json.isSpace]
  rw [hskip, json_parseValue_object (f + 4) 0 _ (by decide), hm1 f]
  simp [json.skipSpace]

/-! ## The byte strings of the model as text, and the fuel of its loops -/

theorem text_of_names :
    json.Field.ID.name = ("id").data.map Char.toNat
      ∧ json.Field.Content.name = ("content").data.map Char.toNat
      ∧ json.Field.WaitTime.name = ("wait_time").data.map Char.toNat
      ∧ propagation.traceparentHeader = ("traceparent").data.map Char.toNat
      ∧ producer.queueName = ("work").data.map Char.toNat
      ∧ (producer.publishing propagation.Background []).ContentType
          = ("application/json").data.map Char.toNat := by
  decide

theorem text_of_generated_message :
    producer.generate 1 2
        = { ID := ("1").data.map Char.toNat,
            Content := ("Message #1").data.map Char.toNat, WaitTime := 3 }
      ∧ (producer.generate 1 2).ToJSON
        = (("\x7b\"id\":\"1\",\"content\":\"Message #1\",\"wait_time\":3\x7d").data.map Char.toNat,
            none) := by
  decide

theorem text_of_traceparent :
    (propagation.Inject { spanContext := Example.spanContext } ∅).lookup
        propagation.traceparentHeader
      = some (("00-4bf92f3577b34da6a3ce929d0e0e4736-00f067aa0ba902b7-01").data.map
          Char.toNat) := by
  decide

/-- The digits do not depend on the fuel once it exceeds the number. -/
theorem strconv_formatBits_fuel (f : Nat) :
    ∀ g u, u < f → u < g → strconv.formatBits f u = strconv.formatBits g u := by
  induction f with
  | zero => intro g u h; omega
  | succ f ih =>
    intro g u hf hg
    obtain ⟨g', rfl⟩ : ∃ g', g = g' + 1 := ⟨g - 1, by omega⟩
    unfold strconv.formatBits
    by_cases h10 : u < 10
    · rw [if_pos h10, if_pos h10]
    · rw [if_neg h10, if_neg h10, ih g' (u / 10) (by omega) (by omega)]

theorem utf8_DecodeRune_size_pos (c : Nat) (t : GoString) :
    1 ≤ (utf8.DecodeRune (c :: t)).2 := by
  by_cases hc : c < 0x80
  · simp [utf8.DecodeRune, hc]
  · rcases utf8_DecodeRune_cases c t (by omega) with h | ⟨s1, x, rfl, hw⟩
      | ⟨s1, s2, x, rfl, hw⟩ | ⟨s1, s2, s3, x, rfl, hw⟩
    · rw [h]
    · rw [utf8_DecodeRune_two c s1 x hw]
      simp
    · rw [utf8_DecodeRune_three c s1 s2 x hw]
      simp
    · rw [utf8_DecodeRune_four c s1 s2 s3 x hw]
      simp

/-- The validity loop does not depend on the fuel once it reaches the length. -/
theorem utf8_validLoop_fuel (f : Nat) :
    ∀ g s, s.length ≤ f → s.length ≤ g → utf8.validLoop f s = utf8.validLoop g s := by
  induction f with
  | zero =>
    intro g s hf _
    have hs : s = [] := List.length_eq_zero.mp (by omega)
    subst hs
    cases g <;> rfl
  | succ f ih =>
    intro g s hf hg
    cases s with
    | nil => cases g <;> rfl
    | cons c t =>
      simp only [List.length_cons] at hf hg
      obtain ⟨g', rfl⟩ : ∃ g', g = g' + 1 := ⟨g - 1, by omega⟩
      have hpos := utf8_DecodeRune_size_pos c t
      have hdrop : ((c :: t).drop (utf8.DecodeRune (c :: t)).2).length ≤ t.length := by
        simp only [List.length_drop, List.length_cons]
        omega
      simp only [utf8.validLoop]
      rw [ih g' t (by omega) (by omega), ih g' _ (by omega) (by omega)]

/-- The encoder loop does not depend on the fuel once it reaches the length. -/
theorem json_appendStringLoop_fuel (f : Nat) :
    ∀ g s, s.length ≤ f → s.length ≤ g →
      json.appendStringLoop f s = json.appendStringLoop g s := by
  induction f with
  | zero =>
    intro g s hf _
    have hs : s = [] := List.length_eq_zero.mp (by omega)
    subst hs
    cases g <;> rfl
  | succ f ih =>
    intro g s hf hg
    cases s with
    | nil => cases g <;> rfl
    | cons c t =>
      simp only [List.length_cons] at hf hg
      obtain ⟨g', rfl⟩ : ∃ g', g = g' + 1 := ⟨g - 1, by omega⟩
      have hpos := utf8_DecodeRune_size_pos c t
      have hdrop : ((c :: t).drop (utf8.DecodeRune (c :: t)).2).length ≤ t.length := by
        simp only [List.length_drop, List.length_cons]
        omega
      simp only [json.appendStringLoop]
      rw [ih g' t (by omega) (by omega), ih g' _ (by omega) (by omega)]

/-- The unquoting loop does not depend on the fuel once it reaches the length of the
input. -/
theorem json_unquoteLoop_fuel (f : Nat) :
    ∀ g s, s.length ≤ f → s.length ≤ g → json.unquoteLoop f s = json.unquoteLoop g s := by
  induction f with
  | zero =>
    intro g s hf _
    have hs : s = [] := List.length_eq_zero.mp (by omega)
    subst hs
    cases g <;> rfl
  | succ f ih =>
    intro g s hf hg
    cases s with
    | nil => cases g <;> rfl
    | cons c t =>
      simp only [List.length_cons] at hf hg
      obtain ⟨g', rfl⟩ : ∃ g', g = g' + 1 := ⟨g - 1, by omega⟩
      have hpos := utf8_DecodeRune_size_pos c t
      have hdrop : ((c :: t).drop (utf8.DecodeRune (c :: t)).2).length ≤ t.length := by
        simp only [List.length_drop, List.length_cons]
        omega
      have h6 : ((c :: t).drop 6).length ≤ t.length := by
        simp only [List.length_drop, List.length_cons]
        omega
      have h12 : ((c :: t).drop 12).length ≤ t.length := by
        simp only [List.length_drop, List.length_cons]
        omega
      cases t with
      | nil =>
        simp only [json.unquoteLoop]
        rw [ih g' [] (by simp) (by simp),
          ih g' _ (le_trans hdrop (by simp)) (le_trans hdrop (by simp))]
      | cons e t1 =>
        simp only [List.length_cons] at hf hg hdrop h6 h12
        simp only [json.unquoteLoop]
        rw [ih g' (e :: t1) (by simp only [List.length_cons]; omega)
            (by simp only [List.length_cons]; omega),
          ih g' _ (le_trans hdrop (by omega)) (le_trans hdrop (by omega)),
          ih g' _ (le_trans h6 (by omega)) (le_trans h6 (by omega)),
          ih g' _ (le_trans h12 (by omega)) (le_trans h12 (by omega)),
          ih g' t1 (by omega) (by omega)]

/-! ## The fuel of the parser

`json.parse` starts the parser with fuel `2 * data.length + 2`.  The lemmas of this
section show that this is enough: whatever the parser reads with some amount of fuel, it
reads with every amount of at least twice the length of its input. -/

theorem json_skipSpace_length (s : GoString) : (json.skipSpace s).length ≤ s.length := by
  induction s with
  | nil => simp [json.skipSpace]
  | cons c t ih =>
    unfold json.skipSpace
    split_ifs
    · simp only [List.length_cons]
      omega
    · exact le_refl _

theorem json_unquoteLoop_length (f : Nat) :
    ∀ s x rest, json.unquoteLoop f s = some (x, rest) → rest.length ≤ s.length := by
  induction f with
  | zero => intro s x rest h; simp [json.unquoteLoop] at h
  | succ f ih =>
    intro s x rest h
    have key : ∀ (k : Nat) (pre : GoString),
        (json.unquoteLoop f (s.drop k)).map (fun r => (pre ++ r.1, r.2)) = some (x, rest) →
        rest.length ≤ s.length := by
      intro k pre hk
      cases hr : json.unquoteLoop f (s.drop k) with
      | none => rw [hr] at hk; cases hk
      | some r =>
        rw [hr] at hk
        simp only [Option.map_some', Option.some.injEq, Prod.mk.injEq] at hk
        have := ih _ r.1 r.2 hr
        rw [hk.2, List.length_drop] at this
        omega
    cases s with
    | nil => simp [json.unquoteLoop] at h
    | cons c t =>
      simp only [json.unquoteLoop] at h
      split_ifs at h with h1 h2 h3 h4
      · simp only [Option.some.injEq, Prod.mk.injEq] at h
        rw [← h.2]
        simp
      · cases t with
        | nil => simp at h
        | cons e t1 =>
          simp only at h
          split_ifs at h with h5
          · cases hg : json.getu4 (c :: e :: t1) with
            | none => rw [hg] at h; cases h
            | some rr =>
              rw [hg] at h
              simp only at h
              split_ifs at h with h6
              · cases hg1 : json.getu4 (List.drop 6 (c :: e :: t1)) with
                | none =>
                  rw [hg1] at h
                  exact key 6 _ h
                | some rr1 =>
                  rw [hg1] at h
                  simp only at h
                  split_ifs at h
                  · exact key 12 _ h
                  · exact key 6 _ h
              · exact key 6 _ h
          · cases hse : json.simpleEscape e with
            | none => rw [hse] at h; cases h
            | some b =>
              rw [hse] at h
              exact key 2 [b] h
      · exact key 1 [c] h
      · exact key _ _ h

theorem json_scanString_length (s x rest : GoString) (h : json.scanString s = some (x, rest)) :
    rest.length ≤ s.length :=
  json_unquoteLoop_length s.length s x rest h

theorem json_spanDigits_length (s : GoString) : (json.spanDigits s).2.length ≤ s.length := by
  induction s with
  | nil => simp [json.spanDigits]
  | cons c t ih =>
    unfold json.spanDigits
    split_ifs
    · simp only [List.length_cons]
      omega
    · exact le_refl _

theorem json_scanExp_length (lit s l r : GoString) (h : json.scanExp lit s = some (l, r)) :
    r.length ≤ s.length := by
  unfold json.scanExp at h
  cases s with
  | nil =>
    simp only [Option.some.injEq, Prod.mk.injEq] at h
    rw [← h.2]
  | cons e t =>
    simp only at h
    split_ifs at h with h1
    · cases t with
      | nil => simp at h
      | cons sg t1 =>
        simp only at h
        split_ifs at h with h2
        · have hl := json_spanDigits_length t1
          split at h
          · cases h
          · rename_i ds r' _ heq
            simp only [Option.some.injEq, Prod.mk.injEq] at h
            rw [heq] at hl
            rw [← h.2]
            simp only [List.length_cons]
            try simp only at hl
            omega
        · have hl := json_spanDigits_length (sg :: t1)
          split at h
          · cases h
          · rename_i ds r' _ heq
            simp only [Option.some.injEq, Prod.mk.injEq] at h
            rw [heq] at hl
            rw [← h.2]
            simp only [List.length_cons] at hl ⊢
            try simp only at hl
            omega
    · simp only [Option.some.injEq, Prod.mk.injEq] at h
      rw [← h.2]

theorem json_scanFrac_length (lit s l r : GoString) (h : json.scanFrac lit s = some (l, r)) :
    r.length ≤ s.length := by
  unfold json.scanFrac at h
  split at h
  · rename_i t
    have hl := json_spanDigits_length t
    split at h
    · cases h
    · rename_i ds r' _ heq
      have := json_scanExp_length _ _ _ _ h
      rw [heq] at hl
      simp only [List.length_cons]
      try simp only at hl
      omega
  · exact json_scanExp_length _ _ _ _ h

theorem json_scanInt_length (lit s l r : GoString) (h : json.scanInt lit s = some (l, r)) :
    r.length ≤ s.length := by
  unfold json.scanInt at h
  cases s with
  | nil => cases h
  | cons c t =>
    simp only at h
    split_ifs at h
    · have := json_scanFrac_length _ _ _ _ h
      simp only [List.length_cons]
      omega
    · have := json_scanFrac_length _ _ _ _ h
      have hl := json_spanDigits_length t
      simp only [List.length_cons]
      omega

theorem json_scanNumber_length (s l r : GoString) (h : json.scanNumber s = some (l, r)) :
    r.length ≤ s.length := by
  unfold json.scanNumber at h
  split at h
  · have := json_scanInt_length _ _ _ _ h
    simp only [List.length_cons]
    omega
  · exact json_scanInt_length _ _ _ _ h

theorem json_parseValue_leaf (f g depth c : Nat) (t : GoString) (h1 : c ≠ 0x7B)
    (h2 : c ≠ 0x5B) :
    json.parseValue (f + 1) depth (c :: t) = json.parseValue (g + 1) depth (c :: t) := by
  rw [json.parseValue, json.parseValue]
  simp only [if_neg h1, if_neg h2]

theorem json_parseValue_leaf_length (f depth c : Nat) (t rest : GoString) (v : json.JSON)
    (h1 : c ≠ 0x7B) (h2 : c ≠ 0x5B)
    (h : json.parseValue (f + 1) depth (c :: t) = some (v, rest)) :
    rest.length ≤ t.length + 1 := by
  rw [json.parseValue] at h
  simp only [if_neg h1, if_neg h2] at h
  split_ifs at h with h3 h4
  · cases hs : json.scanString t with
    | none => rw [hs] at h; cases h
    | some p =>
      obtain ⟨x, r⟩ := p
      rw [hs] at h
      simp only [Option.map_some', Option.some.injEq, Prod.mk.injEq] at h
      have := json_scanString_length t x r hs
      rw [← h.2]
      omega
  · cases hs : json.scanNumber (c :: t) with
    | none => rw [hs] at h; cases h
    | some p =>
      obtain ⟨x, r⟩ := p
      rw [hs] at h
      simp only [Option.map_some', Option.some.injEq, Prod.mk.injEq] at h
      have := json_scanNumber_length (c :: t) x r hs
      rw [← h.2]
      simpa using this
  · split at h
    · rename_i r heq
      simp only [Option.some.injEq, Prod.mk.injEq] at h
      have := congrArg List.length heq
      rw [← h.2]
      simp only [List.length_cons] at this
      omega
    · rename_i r heq
      simp only [Option.some.injEq, Prod.mk.injEq] at h
      have := congrArg List.length heq
      rw [← h.2]
      simp only [List.length_cons] at this
      omega
    · rename_i r heq
      simp only [Option.some.injEq, Prod.mk.injEq] at h
      have := congrArg List.length heq
      rw [← h.2]
      simp only [List.length_cons] at this
      omega
    · cases h

/-- With any amount of fuel, what the parser reads is read with every amount of fuel of
at least twice the length of the input (one more for element and member lists), and the
rest it returns is not longer than the input. -/
theorem json_parser_fuel (f : Nat) :
    (∀ depth s v rest, json.parseValue f depth s = some (v, rest) →
        rest.length ≤ s.length
          ∧ ∀ g, 2 * s.length ≤ g → json.parseValue g depth s = some (v, rest))
      ∧ (∀ depth s vs rest, json.parseElems f depth s = some (vs, rest) →
        rest.length ≤ s.length
          ∧ ∀ g, 2 * s.length + 1 ≤ g → json.parseElems g depth s = some (vs, rest))
      ∧ (∀ depth s ms rest, json.parseMembers f depth s = some (ms, rest) →
        rest.length ≤ s.length
          ∧ ∀ g, 2 * s.length + 1 ≤ g → json.parseMembers g depth s = some (ms, rest)) := by
  induction f with
  | zero =>
    refine ⟨?_, ?_, ?_⟩
    · intro depth s v rest h
      rw [json.parseValue] at h
      cases h
    · intro depth s vs rest h
      rw [json.parseElems] at h
      cases h
    · intro depth s ms rest h
      rw [json.parseMembers] at h
      cases h
  | succ f ih =>
    obtain ⟨ihV, ihE, ihM⟩ := ih
    refine ⟨?_, ?_, ?_⟩
    · intro depth s v rest h
      cases s with
      | nil =>
        rw [json.parseValue] at h
        cases h
      | cons c t =>
        have hsk := json_skipSpace_length t
        by_cases h7B : c = 0x7B
        · subst h7B
          rw [json.parseValue] at h
          simp only [if_true] at h
          by_cases hdep : depth + 1 > json.maxNestingDepth
          · rw [if_pos hdep] at h
            cases h
          · rw [if_neg hdep] at h
            split at h
            · rename_i r heq
              simp only [Option.some.injEq, Prod.mk.injEq] at h
              obtain ⟨hv, hr⟩ := h
              subst hv hr
              rw [heq] at hsk
              simp only [List.length_cons] at hsk ⊢
              refine ⟨by omega, ?_⟩
              intro g hg
              obtain ⟨g', rfl⟩ : ∃ g', g = g' + 1 := ⟨g - 1, by omega⟩
              rw [json.parseValue]
              simp only [if_true]
              rw [if_neg hdep, heq]
            · rename_i hne
              cases hpm : json.parseMembers f (depth + 1) (json.skipSpace t) with
              | none => rw [hpm] at h; cases h
              | some p =>
                obtain ⟨ms, r⟩ := p
                rw [hpm] at h
                simp only [Option.map_some', Option.some.injEq, Prod.mk.injEq] at h
                obtain ⟨hv, hr⟩ := h
                subst hv hr
                obtain ⟨hlen, hfuel⟩ := ihM _ _ _ _ hpm
                simp only [List.length_cons]
                refine ⟨by omega, ?_⟩
                intro g hg
                obtain ⟨g', rfl⟩ : ∃ g', g = g' + 1 := ⟨g - 1, by omega⟩
                rw [json.parseValue]
                simp only [if_true]
                rw [if_neg hdep, hfuel g' (by omega)]
                rfl
        · by_cases h5B : c = 0x5B
          · subst h5B
            rw [json.parseValue] at h
            simp only [if_neg h7B, if_true] at h
            by_cases hdep : depth + 1 > json.maxNestingDepth
            · rw [if_pos hdep] at h
              cases h
            · rw [if_neg hdep] at h
              split at h
              · rename_i r heq
                simp only [Option.some.injEq, Prod.mk.injEq] at h
                obtain ⟨hv, hr⟩ := h
                subst hv hr
                rw [heq] at hsk
                simp only [List.length_cons] at hsk ⊢
                refine ⟨by omega, ?_⟩
                intro g hg
                obtain ⟨g', rfl⟩ : ∃ g', g = g' + 1 := ⟨g - 1, by omega⟩
                rw [json.parseValue]
                simp only [if_neg h7B, if_true]
                rw [if_neg hdep, heq]
              · rename_i hne
                cases hpe : json.parseElems f (depth + 1) (json.skipSpace t) with
                | none => rw [hpe] at h; cases h
                | some p =>
                  obtain ⟨vs, r⟩ := p
                  rw [hpe] at h
                  simp only [Option.map_some', Option.some.injEq, Prod.mk.injEq] at h
                  obtain ⟨hv, hr⟩ := h
                  subst hv hr
                  obtain ⟨hlen, hfuel⟩ := ihE _ _ _ _ hpe
                  simp only [List.length_cons]
                  refine ⟨by omega, ?_⟩
                  intro g hg
                  obtain ⟨g', rfl⟩ : ∃ g', g = g' + 1 := ⟨g - 1, by omega⟩
                  rw [json.parseValue]
                  simp only [if_neg h7B, if_true]
                  rw [if_neg hdep, hfuel g' (by omega)]
                  rfl
          · refine ⟨json_parseValue_leaf_length f depth c t rest v h7B h5B h, ?_⟩
            intro g hg
            simp only [List.length_cons] at hg
            obtain ⟨g', rfl⟩ : ∃ g', g = g' + 1 := ⟨g - 1, by omega⟩
            rw [json_parseValue_leaf g' f depth c t h7B h5B]
            exact h
    · intro depth s vs rest h
      rw [json.parseElems] at h
      cases hv : json.parseValue f depth s with
      | none => rw [hv] at h; cases h
      | some p =>
        obtain ⟨v, r⟩ := p
        rw [hv] at h
        simp only at h
        obtain ⟨hlenV, hfuelV⟩ := ihV _ _ _ _ hv
        have hsk := json_skipSpace_length r
        split at h
        · rename_i r1 heq
          have hsk1 := json_skipSpace_length r1
          cases hpe : json.parseElems f depth (json.skipSpace r1) with
          | none => rw [hpe] at h; cases h
          | some q =>
            obtain ⟨vs', r'⟩ := q
            rw [hpe] at h
            simp only [Option.map_some', Option.some.injEq, Prod.mk.injEq] at h
            obtain ⟨hvs, hr⟩ := h
            subst hvs hr
            obtain ⟨hlenE, hfuelE⟩ := ihE _ _ _ _ hpe
            rw [heq] at hsk
            simp only [List.length_cons] at hsk
            refine ⟨by omega, ?_⟩
            intro g hg
            obtain ⟨g', rfl⟩ : ∃ g', g = g' + 1 := ⟨g - 1, by omega⟩
            rw [json.parseElems, hfuelV g' (by omega)]
            simp only [heq]
            rw [hfuelE g' (by omega)]
            rfl
        · rename_i r1 heq
          simp only [Option.some.injEq, Prod.mk.injEq] at h
          obtain ⟨hvs, hr⟩ := h
          subst hvs hr
          rw [heq] at hsk
          simp only [List.length_cons] at hsk
          refine ⟨by omega, ?_⟩
          intro g hg
          obtain ⟨g', rfl⟩ : ∃ g', g = g' + 1 := ⟨g - 1, by omega⟩
          rw [json.parseElems, hfuelV g' (by omega)]
          simp only [heq]
        · cases h
    · intro depth s ms rest h
      unfold json.parseMembers at h
      split at h
      · rename_i t
        cases hk : json.scanString t with
        | none => rw [hk] at h; cases h
        | some p =>
          obtain ⟨key, r⟩ := p
          rw [hk] at h
          simp only at h
          have hlenK := json_scanString_length t key r hk
          have hsk := json_skipSpace_length r
          split at h
          · rename_i r1 heq
            have hsk1 := json_skipSpace_length r1
            rw [heq] at hsk
            simp only [List.length_cons] at hsk
            cases hv : json.parseValue f depth (json.skipSpace r1) with
            | none => rw [hv] at h; cases h
            | some q =>
              obtain ⟨v, r2⟩ := q
              rw [hv] at h
              simp only at h
              obtain ⟨hlenV, hfuelV⟩ := ihV _ _ _ _ hv
              have hsk2 := json_skipSpace_length r2
              split at h
              · rename_i r3 heq2
                have hsk3 := json_skipSpace_length r3
                rw [heq2] at hsk2
                simp only [List.length_cons] at hsk2
                cases hpm : json.parseMembers f depth (json.skipSpace r3) with
                | none => rw [hpm] at h; cases h
                | some q' =>
                  obtain ⟨ms', r'⟩ := q'
                  rw [hpm] at h
                  simp only [Option.map_some', Option.some.injEq, Prod.mk.injEq] at h
                  obtain ⟨hms, hr⟩ := h
                  subst hms hr
                  obtain ⟨hlenM, hfuelM⟩ := ihM _ _ _ _ hpm
                  simp only [List.length_cons]
                  refine ⟨by omega, ?_⟩
                  intro g hg
                  obtain ⟨g', rfl⟩ : ∃ g', g = g' + 1 := ⟨g - 1, by omega⟩
                  rw [json.parseMembers]
                  simp only [hk, heq]
                  rw [hfuelV g' (by omega)]
                  simp only [heq2]
                  rw [hfuelM g' (by omega)]
                  rfl
              · rename_i r3 heq2
                rw [heq2] at hsk2
                simp only [List.length_cons] at hsk2
                simp only [Option.some.injEq, Prod.mk.injEq] at h
                obtain ⟨hms, hr⟩ := h
                subst hms hr
                simp only [List.length_cons]
                refine ⟨by omega, ?_⟩
                intro g hg
                obtain ⟨g', rfl⟩ : ∃ g', g = g' + 1 := ⟨g - 1, by omega⟩
                rw [json.parseMembers]
                simp only [hk, heq]
                rw [hfuelV g' (by omega)]
                simp only [heq2]
              · cases h
          · cases h
      · cases h

/-- The fuel `json.parse` starts with is enough: if a value followed only by white space
can be read from `data` with any amount of fuel at all, `json.parse` returns that value. -/
theorem json_parse_fuel_is_enough (data : GoString) (f : Nat) (v : json.JSON)
    (rest : GoString) (h : json.parseValue f 0 (json.skipSpace data) = some (v, rest))
    (hrest : json.skipSpace rest = []) : json.parse data = some v := by
  have hlen := json_skipSpace_length data
  obtain ⟨_, hfuel⟩ := (json_parser_fuel f).1 _ _ _ _ h
  unfold json.parse
  rw [hfuel (2 * data.length + 2) (by omega)]
  simp [hrest]

/-! ## Decoding what the producer publishes -/

/-- Decoding what `ToJSON` wrote gives the message back, for valid UTF-8 strings and a
`WaitTime` within `int`. -/
theorem message_FromJSON_ToJSON (m : message.Message)
    (hid : utf8.ValidString m.ID = true) (hct : utf8.ValidString m.Content = true)
    (hw : isInt64 m.WaitTime) :
    message.FromJSON (message.Message.ToJSON m).1 = (some m, none) := by
  have hto : message.Message.ToJSON m = ((json.Marshal m).1, none) := rfl
  have h1 : json.findField json.Field.ID.name = some json.Field.ID := by decide
  have h2 : json.findField json.Field.Content.name = some json.Field.Content := by decide
  have h3 : json.findField json.Field.WaitTime.name = some json.Field.WaitTime := by decide
  rw [hto, message_FromJSON_object _ _ (json_parse_Marshal m hid hct)]
  simp [List.foldl, json.decodeState.member, h1, h2, h3, json.decodeState.store,
    strconv_ParseInt_FormatInt m.WaitTime hw, message.zero]

/-- The body the producer publishes for a counter value decodes to the generated
envelope. -/
theorem producer_generate_decodes (messageID : Int) (r : Fin 20) :
    message.FromJSON (producer.generate messageID r).ToJSON.1
      = (some (producer.generate messageID r), none) := by
  apply message_FromJSON_ToJSON
  · exact utf8_ValidString_ascii _ (strconv_FormatInt_ascii messageID)
  · apply utf8_ValidString_ascii
    intro c hc
    simp only [producer.generate, message.NewMessage, List.mem_append] at hc
    rcases hc with hc | hc
    · revert c
      decide
    · exact strconv_FormatInt_ascii messageID c hc
  · have := r.isLt
    simp only [producer.generate, message.NewMessage]
    unfold isInt64 minInt64 maxInt64
    omega

/-! ## The claims -/

/-- C1, as stated, fails for an ID that is not valid UTF-8: `json.Marshal` replaces every
invalid byte by the escape of U+FFFD.  For the message with the one-byte ID `0xFF`,
`ToJSON` returns no error and `FromJSON` of its result succeeds, but the ID that comes back
is the three bytes `EF BF BD`, not the byte `FF`. -/
theorem invalid_utf8_id_does_not_round_trip :
    (message.Message.ToJSON { ID := [0xFF], Content := [], WaitTime := 0 }).2 = none
      ∧ message.FromJSON
          (message.Message.ToJSON { ID := [0xFF], Content := [], WaitTime := 0 }).1
        = (some { ID := [0xEF, 0xBF, 0xBD], Content := [], WaitTime := 0 }, none)
      ∧ ([0xEF, 0xBF, 0xBD] : GoString) ≠ [0xFF] := by
  decide

/-- C1, amended: for every Message `m` whose ID and Content are valid UTF-8 (and any
WaitTime of Go's `int`), `ToJSON(m)` returns no error, and `FromJSON` applied to the string
it returns succeeds and yields a Message equal to `m` field for field; in particular the ID
comes back exactly, with no normalization and no truncation. -/
theorem valid_utf8_message_round_trips (m : message.Message)
    (hid : utf8.ValidString m.ID = true) (hct : utf8.ValidString m.Content = true)
    (hw : isInt64 m.WaitTime) :
    (message.Message.ToJSON m).2 = none
      ∧ ∃ m', message.FromJSON (message.Message.ToJSON m).1 = (some m', none)
          ∧ m'.ID = m.ID ∧ m'.Content = m.Content ∧ m'.WaitTime = m.WaitTime := by
  have hto : message.Message.ToJSON m = ((json.Marshal m).1, none) := rfl
  have h1 : json.findField json.Field.ID.name = some json.Field.ID := by decide
  have h2 : json.findField json.Field.Content.name = some json.Field.Content := by decide
  have h3 : json.findField json.Field.WaitTime.name = some json.Field.WaitTime := by decide
  rw [hto]
  refine ⟨rfl, m, ?_, rfl, rfl, rfl⟩
  rw [message_FromJSON_object _ _ (json_parse_Marshal m hid hct)]
  simp [List.foldl, json.decodeState.member, h1, h2, h3, json.decodeState.store,
    strconv_ParseInt_FormatInt m.WaitTime hw, message.zero]

/-- The round trip of C1 at a message with a two-byte rune in its ID and a quote, an angle
bracket, U+2028 and a line feed in its Content. -/
theorem valid_utf8_message_round_trips_witness :
    utf8.ValidString [0xC3, 0xA9, 0x31] = true
      ∧ utf8.ValidString [0x4D, 0x73, 0x67, 0x20, 0x22, 0x3C, 0xE2, 0x80, 0xA8, 0x0A] = true
      ∧ isInt64 (-7)
      ∧ (message.Message.ToJSON
          { ID := [0xC3, 0xA9, 0x31],
            Content := [0x4D, 0x73, 0x67, 0x20, 0x22, 0x3C, 0xE2, 0x80, 0xA8, 0x0A],
            WaitTime := -7 }).2 = none
      ∧ ∃ m', message.FromJSON
            (message.Message.ToJSON
              { ID := [0xC3, 0xA9, 0x31],
                Content := [0x4D, 0x73, 0x67, 0x20, 0x22, 0x3C, 0xE2, 0x80, 0xA8, 0x0A],
                WaitTime := -7 }).1 = (some m', none)
          ∧ m'.ID = [0xC3, 0xA9, 0x31]
          ∧ m'.Content = [0x4D, 0x73, 0x67, 0x20, 0x22, 0x3C, 0xE2, 0x80, 0xA8, 0x0A]
          ∧ m'.WaitTime = -7 :=
  ⟨by decide, by decide, by decide,
    valid_utf8_message_round_trips
      { ID := [0xC3, 0xA9, 0x31],
        Content := [0x4D, 0x73, 0x67, 0x20, 0x22, 0x3C, 0xE2, 0x80, 0xA8, 0x0A],
        WaitTime := -7 }
      (by decide) (by decide) (by decide)⟩

/-- C2: for every valid span context `C` (any trace id, span id and flags), the header
table of the publishing the producer builds by injecting `C` into a string map and
copying the map into an `amqp.Table`, received by the consumer, passed through its
string filter (in any visiting order) and through `Extract` of the same propagator, gives
a valid span context with the trace id and the span id of `C`. -/
theorem trace_context_survives_the_queue (C : trace.SpanContext) (hw : C.wellTyped)
    (hv : C.IsValid = true) (jsonMsg : GoString) (visit : List (Entry amqp.Value))
    (hvisit : visit.Perm (producer.publishing { spanContext := C } jsonMsg).Headers.entries) :
    (consumer.extractedContext visit).spanContext.IsValid = true
      ∧ (consumer.extractedContext visit).spanContext.TraceID = C.TraceID
      ∧ (consumer.extractedContext visit).spanContext.SpanID = C.SpanID := by
  have hlk := carrier_roundtrip_lookup (propagation.Inject { spanContext := C } ∅)
    (propagation.Inject { spanContext := C } ∅).entries visit (List.Perm.refl _) hvisit
    propagation.traceparentHeader
  have hinj : (propagation.Inject { spanContext := C } ∅).lookup propagation.traceparentHeader
      = some ([0x30, 0x30] ++ 0x2D :: hex.Encode C.TraceID ++ 0x2D :: hex.Encode C.SpanID
        ++ 0x2D :: hex.Encode [C.TraceFlags % 2]) := by
    unfold propagation.Inject propagation.TraceContext.Inject propagation.MapCarrier.Set
    simp only [hv, Bool.true_eq_false, if_false]
    exact AList.lookup_insert _
  rw [hinj] at hlk
  have hex := extract_of_traceparent C hw hv (consumer.headers visit) hlk
  have hvalid : (trace.SpanContext.mk C.TraceID C.SpanID (C.TraceFlags % 2) true).IsValid
      = true := by
    unfold trace.SpanContext.IsValid at hv ⊢
    exact hv
  unfold consumer.extractedContext propagation.Extract
  simp only [hex, hvalid, Bool.true_eq_false, if_false, and_self]

/-- The propagation round trip of C2 at the span context of the W3C examples. -/
theorem trace_context_survives_the_queue_witness :
    Example.spanContext.wellTyped ∧ Example.spanContext.IsValid = true
      ∧ (consumer.extractedContext
          (producer.publishing { spanContext := Example.spanContext }
            [0x7B, 0x7D]).Headers.entries).spanContext.IsValid = true
      ∧ (consumer.extractedContext
          (producer.publishing { spanContext := Example.spanContext }
            [0x7B, 0x7D]).Headers.entries).spanContext.TraceID = Example.spanContext.TraceID
      ∧ (consumer.extractedContext
          (producer.publishing { spanContext := Example.spanContext }
            [0x7B, 0x7D]).Headers.entries).spanContext.SpanID = Example.spanContext.SpanID :=
  ⟨by decide, by decide,
    trace_context_survives_the_queue Example.spanContext (by decide) (by decide)
      [0x7B, 0x7D] _ (List.Perm.refl _)⟩

/-- C3: for every delivered header table (string keys, dynamically typed values), in
whatever order the loop visits its entries, the carrier the consumer builds maps `k` to
`s` exactly when the table maps `k` to the string value `s`.  String entries are kept
unchanged and all other entries are dropped; `consumer.headers` is a total function, so
building the carrier has no failing case. -/
theorem consumer_carrier_holds_exactly_the_string_entries (table : amqp.Table)
    (visit : List (Entry amqp.Value)) (hvisit : visit.Perm table.entries)
    (k s : GoString) :
    (consumer.headers visit).lookup k = some s ↔ table.lookup k = some (amqp.Value.str s) := by
  have nd : visit.NodupKeys := (List.perm_nodupKeys hvisit).mpr table.nodupKeys
  rw [consumer_headers_lookup visit k nd, List.perm_dlookup k nd table.nodupKeys hvisit,
    AList.lookup]
  cases List.dlookup k table.entries with
  | none => simp
  | some v => cases v <;> simp [consumer.strOf]

/-- The filter of C3 at a table with one string and one integer entry, visited in the
order opposite to the order of its entries. -/
theorem consumer_carrier_holds_exactly_the_string_entries_witness :
    List.Perm [⟨[0x61], amqp.Value.int 5⟩, ⟨[0x62], amqp.Value.str [0x78]⟩]
        Example.mixedTable.entries
      ∧ ((consumer.headers
          [⟨[0x61], amqp.Value.int 5⟩, ⟨[0x62], amqp.Value.str [0x78]⟩]).lookup [0x62]
          = some [0x78]
        ↔ Example.mixedTable.lookup [0x62] = some (amqp.Value.str [0x78])) :=
  ⟨List.Perm.swap _ _ [],
    consumer_carrier_holds_exactly_the_string_entries Example.mixedTable
      [⟨[0x61], amqp.Value.int 5⟩, ⟨[0x62], amqp.Value.str [0x78]⟩]
      (List.Perm.swap _ _ []) [0x62] [0x78]⟩

/-- C4, as stated, fails: the input `{"id":"1"}` is a syntactically valid JSON object that
lacks the members `content` and `wait_time`, and `FromJSON` returns a Message (with empty
`Content` and `WaitTime` 0) and no error. -/
theorem missing_members_are_not_an_error :
    message.FromJSON [0x7B, 0x22, 0x69, 0x64, 0x22, 0x3A, 0x22, 0x31, 0x22, 0x7D]
      = (some { ID := [0x31], Content := [], WaitTime := 0 }, none) := by
  decide

/-- C4, amended: for every input that is a syntactically valid JSON object lacking a
member for the field `f` (one of `id`, `content`, `wait_time`, keys matched as the decoder
matches them), `FromJSON` does not treat the absence as an error.  When every member that
is present holds a value its field accepts, it returns no error and a Message in which
the field `f` has its zero value; otherwise it returns the type error and no Message. -/
theorem absent_member_leaves_zero_value (data : GoString)
    (members : List (GoString × json.JSON)) (f : json.Field)
    (hp : json.parse data = some (json.JSON.object members))
    (habs : f.absentFrom members) :
    ((∀ kv ∈ members, ∀ g, json.findField kv.1 = some g → g.accepts kv.2 = true) →
        ∃ m, message.FromJSON data = (some m, none) ∧ f.isZeroIn m)
      ∧ (¬ (∀ kv ∈ members, ∀ g, json.findField kv.1 = some g → g.accepts kv.2 = true) →
        message.FromJSON data = (none, some json.Error.unmarshalType)) := by
  obtain ⟨h1, _, h3⟩ := json_members_savedError members
    { msg := message.zero, savedError := none }
  obtain ⟨a1, a2, a3⟩ := json_members_absent members
    { msg := message.zero, savedError := none } f habs
  rw [message_FromJSON_object data members hp]
  constructor
  · intro hall
    have hnone := h1.mpr ⟨rfl, hall⟩
    rw [hnone]
    refine ⟨_, rfl, ?_⟩
    cases f with
    | ID => exact a1 rfl
    | Content => exact a2 rfl
    | WaitTime => exact a3 rfl
  · intro hnot
    have hne : (members.foldl json.decodeState.member
        { msg := message.zero, savedError := none }).savedError ≠ none := by
      intro h
      exact hnot (h1.mp h).2
    rcases h3 rfl with h | h
    · exact absurd h hne
    · rw [h]

/-- The statement of C4 at the object with the single member `id`, for the absent field
`wait_time`. -/
theorem absent_member_leaves_zero_value_witness :
    json.parse [0x7B, 0x22, 0x69, 0x64, 0x22, 0x3A, 0x22, 0x31, 0x22, 0x7D]
        = some (json.JSON.object [([0x69, 0x64], json.JSON.string [0x31])])
      ∧ json.Field.WaitTime.absentFrom [([0x69, 0x64], json.JSON.string [0x31])]
      ∧ ((∀ kv ∈ [(([0x69, 0x64] : GoString), json.JSON.string [0x31])],
            ∀ g, json.findField kv.1 = some g → g.accepts kv.2 = true) →
          ∃ m, message.FromJSON [0x7B, 0x22, 0x69, 0x64, 0x22, 0x3A, 0x22, 0x31, 0x22, 0x7D]
              = (some m, none) ∧ json.Field.WaitTime.isZeroIn m)
      ∧ (¬ (∀ kv ∈ [(([0x69, 0x64] : GoString), json.JSON.string [0x31])],
            ∀ g, json.findField kv.1 = some g → g.accepts kv.2 = true) →
          message.FromJSON [0x7B, 0x22, 0x69, 0x64, 0x22, 0x3A, 0x22, 0x31, 0x22, 0x7D]
            = (none, some json.Error.unmarshalType)) :=
  ⟨by rfl, by simp [json.Field.absentFrom]; decide,
    absent_member_leaves_zero_value _ _ json.Field.WaitTime (by rfl)
      (by simp [json.Field.absentFrom]; decide)⟩

/-- C5, as stated, fails for `null`: the input `{"wait_time":null}` is a JSON object whose
`wait_time` member is not an integer number, and `FromJSON` returns a Message (with
`WaitTime` 0) and no error. -/
theorem null_wait_time_is_accepted :
    message.FromJSON
        [0x7B, 0x22, 0x77, 0x61, 0x69, 0x74, 0x5F, 0x74, 0x69, 0x6D, 0x65, 0x22, 0x3A,
          0x6E, 0x75, 0x6C, 0x6C, 0x7D]
      = (some { ID := [], Content := [], WaitTime := 0 }, none) := by
  decide

/-- C5, amended: for every input that is a JSON object with a `wait_time` member whose
value is a string, a number with a fraction or exponent part, a boolean, an array or an
object (any JSON value other than an integer number and other than `null`), `FromJSON`
returns an error and no Message. -/
theorem non_integer_wait_time_is_rejected (data : GoString)
    (members : List (GoString × json.JSON)) (key : GoString) (v : json.JSON)
    (hp : json.parse data = some (json.JSON.object members))
    (hmem : (key, v) ∈ members) (hkey : json.findField key = some json.Field.WaitTime)
    (hv : v.isNonIntegerNonNull = true) :
    message.FromJSON data = (none, some json.Error.unmarshalType) := by
  obtain ⟨h1, _, h3⟩ := json_members_savedError members
    { msg := message.zero, savedError := none }
  rw [message_FromJSON_object data members hp]
  have hne : (members.foldl json.decodeState.member
      { msg := message.zero, savedError := none }).savedError ≠ none := by
    intro h
    have hacc := (h1.mp h).2 (key, v) hmem json.Field.WaitTime hkey
    rw [json_WaitTime_rejects v hv] at hacc
    cases hacc
  rcases h3 rfl with h | h
  · exact absurd h hne
  · rw [h]

/-- The statement of C5 at the object whose `wait_time` member is the number `1.5`. -/
theorem non_integer_wait_time_is_rejected_witness :
    json.parse
        [0x7B, 0x22, 0x77, 0x61, 0x69, 0x74, 0x5F, 0x74, 0x69, 0x6D, 0x65, 0x22, 0x3A,
          0x31, 0x2E, 0x35, 0x7D]
        = some (json.JSON.object
            [([0x77, 0x61, 0x69, 0x74, 0x5F, 0x74, 0x69, 0x6D, 0x65],
              json.JSON.number [0x31, 0x2E, 0x35])])
      ∧ json.findField [0x77, 0x61, 0x69, 0x74, 0x5F, 0x74, 0x69, 0x6D, 0x65]
        = some json.Field.WaitTime
      ∧ (json.JSON.number [0x31, 0x2E, 0x35]).isNonIntegerNonNull = true
      ∧ message.FromJSON
          [0x7B, 0x22, 0x77, 0x61, 0x69, 0x74, 0x5F, 0x74, 0x69, 0x6D, 0x65, 0x22, 0x3A,
            0x31, 0x2E, 0x35, 0x7D]
        = (none, some json.Error.unmarshalType) :=
  ⟨by rfl, by decide, by decide,
    non_integer_wait_time_is_rejected _ _ _ _ (by rfl) (List.mem_singleton.mpr rfl)
      (by decide) (by decide)⟩

/-- C6: for every finite sequence of deliveries fed to the consumer loop, a delivery whose
body is not valid JSON does not end the loop.  Its iteration leaves a started span with the
queue attribute, the recorded error and the end of the span, and neither message attributes
nor a sleep; the deliveries before and after it leave exactly the events they leave in the
sequence without the malformed delivery. -/
theorem malformed_delivery_does_not_stop_the_consumer (before after : List amqp.Delivery)
    (bad : amqp.Delivery) (hbad : json.parse bad.Body = none) :
    consumer.loop (before ++ bad :: after)
        = consumer.loop before
          ++ [consumer.Event.spanStart
                (consumer.extractedContext bad.Headers.entries).spanContext,
              consumer.Event.setQueueAttribute,
              consumer.Event.recordError json.Error.invalidJSON,
              consumer.Event.spanEnd]
          ++ consumer.loop after
      ∧ consumer.loop (before ++ after) = consumer.loop before ++ consumer.loop after := by
  refine ⟨?_, consumer_loop_append before after⟩
  rw [consumer_loop_append, consumer_loop_cons, consumer_handle_invalid bad hbad]
  simp

/-- The statement of C6 at a malformed delivery between two well-formed ones. -/
theorem malformed_delivery_does_not_stop_the_consumer_witness :
    json.parse Example.malformedDelivery.Body = none
      ∧ consumer.loop
          ([Example.goodDelivery] ++ Example.malformedDelivery :: [Example.goodDelivery])
        = consumer.loop [Example.goodDelivery]
          ++ [consumer.Event.spanStart
                (consumer.extractedContext
                  Example.malformedDelivery.Headers.entries).spanContext,
              consumer.Event.setQueueAttribute,
              consumer.Event.recordError json.Error.invalidJSON,
              consumer.Event.spanEnd]
          ++ consumer.loop [Example.goodDelivery]
      ∧ consumer.loop ([Example.goodDelivery] ++ [Example.goodDelivery])
        = consumer.loop [Example.goodDelivery] ++ consumer.loop [Example.goodDelivery] :=
  ⟨by rfl,
    malformed_delivery_does_not_stop_the_consumer [Example.goodDelivery]
      [Example.goodDelivery] Example.malformedDelivery (by rfl)⟩

/-- C7: in every producer run, for every sequence of publish outcomes (any mix of successes
and failures), the successful publishes are exactly the steps whose `ch.Publish` succeeded,
in order, and the `k`-th of them (here counted from 0, so the message is number `k + 1`)
carries the id that is the decimal rendering of `k + 1`: the envelope is the one generated
from the counter value `k + 1`, the body handed to `ch.Publish` is its JSON text, and that
body decodes to it.  So any two successfully published messages of the run have different
ids. -/
theorem published_ids_are_the_decimal_count (steps : List producer.Step) :
    (producer.published (producer.run steps)).length
        = (steps.filter (fun s => s.published)).length
      ∧ (∀ (k : Nat) (s : producer.Step),
          (steps.filter (fun s => s.published))[k]? = some s →
          ∃ m p, (producer.published (producer.run steps))[k]? = some (m, p)
            ∧ m.ID = strconv.FormatInt ((k : Int) + 1)
            ∧ m = producer.generate ((k : Int) + 1) s.r
            ∧ p = producer.publishing { spanContext := s.span } m.ToJSON.1
            ∧ p.Body = m.ToJSON.1
            ∧ message.FromJSON p.Body = (some m, none))
      ∧ ((producer.published (producer.run steps)).map (fun x => x.1.ID)).Nodup := by
  obtain ⟨hlen, hidx⟩ := producer_logFrom_published steps 1
  have hpub : producer.published (producer.run steps)
      = (producer.logFrom 1 steps).filterMap producer.Event.sentPair := by
    unfold producer.published
    rw [producer_run_log]
  rw [hpub]
  have hkey : ∀ (k : Nat) (s : producer.Step),
      (steps.filter (fun s => s.published))[k]? = some s →
      ((producer.logFrom 1 steps).filterMap producer.Event.sentPair)[k]?
        = some (producer.generate ((k : Int) + 1) s.r,
            producer.publishing { spanContext := s.span }
              (producer.generate ((k : Int) + 1) s.r).ToJSON.1) := by
    intro k s hk
    rw [hidx k s hk, add_comm (1 : Int) (k : Int)]
  refine ⟨hlen, ?_, ?_⟩
  · intro k s hk
    exact ⟨_, _, hkey k s hk, rfl, rfl, rfl, rfl, producer_generate_decodes _ _⟩
  · have hids : ((producer.logFrom 1 steps).filterMap producer.Event.sentPair).map
          (fun x => x.1.ID)
        = (List.range (steps.filter (fun s => s.published)).length).map
            (fun (k : Nat) => strconv.FormatInt ((k : Int) + 1)) := by
      apply List.ext_getElem?
      intro k
      by_cases hk : k < (steps.filter (fun s => s.published)).length
      · have hs : (steps.filter (fun s => s.published))[k]?
            = some ((steps.filter (fun s => s.published))[k]) := List.getElem?_eq_getElem hk
        rw [List.getElem?_map, hkey k _ hs, List.getElem?_map, List.getElem?_range hk]
        rfl
      · rw [List.getElem?_eq_none (by rw [List.length_map, hlen]; omega),
          List.getElem?_eq_none (by rw [List.length_map, List.length_range]; omega)]
    rw [hids]
    apply List.Nodup.map_on _ (List.nodup_range _)
    intro a _ b _ hab
    have := strconv_FormatInt_injective _ _ hab
    omega

/-- The statement of C7 at a run of a failed publish followed by two successful ones: two
messages were published, with the ids `1` and `2`, the second of them for the third
iteration. -/
theorem published_ids_are_the_decimal_count_witness :
    (producer.published (producer.run Example.failThenTwo)).map (fun x => x.1.ID)
        = [[0x31], [0x32]]
      ∧ (producer.published (producer.run Example.failThenTwo)).length = 2
      ∧ (∃ m p, (producer.published (producer.run Example.failThenTwo))[1]? = some (m, p)
          ∧ m.ID = strconv.FormatInt (((1 : Nat) : Int) + 1)
          ∧ m = producer.generate (((1 : Nat) : Int) + 1) (19 : Fin 20)
          ∧ p = producer.publishing { spanContext := Example.spanContext } m.ToJSON.1
          ∧ p.Body = m.ToJSON.1
          ∧ message.FromJSON p.Body = (some m, none)) :=
  ⟨by decide, (published_ids_are_the_decimal_count Example.failThenTwo).1,
    (published_ids_are_the_decimal_count Example.failThenTwo).2.1 1
      { r := 19, span := Example.spanContext, published := true } (by rfl)⟩

/-- C8: for every value `r` that `rand.Intn(20)` can return (`0 ≤ r < 20`), the envelope
the producer generates has `WaitTime = r + 1` with `1 ≤ WaitTime ≤ 20`, and both bounds
are attained: `r = 0` gives 1 and `r = 19` gives 20. -/
theorem generated_wait_time_is_between_1_and_20 (messageID : Int) (r : Nat) (hr : r < 20) :
    (producer.generate messageID r).WaitTime = (r : Int) + 1
      ∧ 1 ≤ (producer.generate messageID r).WaitTime
      ∧ (producer.generate messageID r).WaitTime ≤ 20
      ∧ (∃ r₀, r₀ < 20 ∧ (producer.generate messageID r₀).WaitTime = 1)
      ∧ (∃ r₁, r₁ < 20 ∧ (producer.generate messageID r₁).WaitTime = 20) := by
  simp only [producer.generate, message.NewMessage]
  refine ⟨trivial, by omega, by omega, ⟨0, by omega, by simp⟩, ⟨19, by omega, by norm_num⟩⟩

/-- The bounds of C8 at `r = 7`. -/
theorem generated_wait_time_is_between_1_and_20_witness :
    7 < 20
      ∧ (producer.generate 1 7).WaitTime = ((7 : Nat) : Int) + 1
      ∧ 1 ≤ (producer.generate 1 7).WaitTime
      ∧ (producer.generate 1 7).WaitTime ≤ 20
      ∧ (∃ r₀, r₀ < 20 ∧ (producer.generate 1 r₀).WaitTime = 1)
      ∧ (∃ r₁, r₁ < 20 ∧ (producer.generate 1 r₁).WaitTime = 20) :=
  ⟨by decide, generated_wait_time_is_between_1_and_20 1 7 (by decide)⟩

/-- C9: the claim that the envelope generated in each loop iteration has an id different
from the id of every envelope generated in an earlier iteration does not hold of the code.
For the publish outcomes error, success, both generated envelopes carry the id `1`: the
`continue` after a failed publish skips `messageID++`, although the field `ID` is documented
as the unique identifier of the message. -/
theorem generated_id_repeats_after_failed_publish :
    (producer.generated (producer.run Example.failThenOk)).map (fun m => m.ID)
        = [[0x31], [0x31]]
      ∧ ¬ ((producer.generated (producer.run Example.failThenOk)).map
          (fun m => m.ID)).Nodup := by
  decide

/-- C10: for every string-to-string carrier `h`, copying `h` into an AMQP header table
with the producer's loop and rebuilding a carrier from that table with the consumer's
string-only filter (each loop in any visiting order) yields a map equal to `h`: every key
looks up the same value, and the entries are those of `h`, nothing added, nothing lost. -/
theorem carrier_survives_the_header_table (h : propagation.MapCarrier)
    (visit₁ : List (Entry GoString)) (visit₂ : List (Entry amqp.Value))
    (p₁ : visit₁.Perm h.entries) (p₂ : visit₂.Perm (producer.amqpHeaders visit₁).entries) :
    (∀ k, (consumer.headers visit₂).lookup k = h.lookup k)
      ∧ (consumer.headers visit₂).entries.Perm h.entries := by
  have hl := carrier_roundtrip_lookup h visit₁ visit₂ p₁ p₂
  refine ⟨hl, ?_⟩
  apply List.lookup_ext (consumer.headers visit₂).nodupKeys h.nodupKeys
  intro x y
  have := hl x
  simp only [AList.lookup] at this
  rw [this]

/-- The round trip of C10 at a carrier with two entries, both loops visiting the entries
in the order opposite to the order of the entries. -/
theorem carrier_survives_the_header_table_witness :
    List.Perm [⟨[0x61], [0x31]⟩, ⟨[0x62], [0x32]⟩] Example.twoEntryCarrier.entries
      ∧ List.Perm [⟨[0x61], amqp.Value.str [0x31]⟩, ⟨[0x62], amqp.Value.str [0x32]⟩]
          (producer.amqpHeaders [⟨[0x61], [0x31]⟩, ⟨[0x62], [0x32]⟩]).entries
      ∧ (∀ k, (consumer.headers
          [⟨[0x61], amqp.Value.str [0x31]⟩, ⟨[0x62], amqp.Value.str [0x32]⟩]).lookup k
          = Example.twoEntryCarrier.lookup k)
      ∧ (consumer.headers
          [⟨[0x61], amqp.Value.str [0x31]⟩, ⟨[0x62], amqp.Value.str [0x32]⟩]).entries.Perm
            Example.twoEntryCarrier.entries :=
  ⟨List.Perm.swap _ _ [], List.Perm.swap _ _ [],
    carrier_survives_the_header_table Example.twoEntryCarrier
      [⟨[0x61], [0x31]⟩, ⟨[0x62], [0x32]⟩]
      [⟨[0x61], amqp.Value.str [0x31]⟩, ⟨[0x62], amqp.Value.str [0x32]⟩]
      (List.Perm.swap _ _ []) (List.Perm.swap _ _ [])⟩
